import Mathlib

/-!
Shallow embedding of the Fang board-game engine (C sources under src/):
`graph.h` (adjacency-list graph, BFS shortest paths, backtracking DFS
reachability), `game_state.h` (game state, move strategies, driver), and the
supporting containers.  Machine integers are modelled as `Nat`/`Int`; the C
arrays `visited`/`distances`/`parents` are modelled as functions `Nat → Bool`
and `Nat → Int` updated pointwise; the injected random source (`rand()`,
`splitmix64`) is modelled as an explicit list of numbers consumed in call
order.  Loops that the C code runs to completion are written with an explicit
fuel argument chosen so that the fuel never runs out on the call patterns the
program uses (see the fuel-indifference theorems below).
-/

namespace Fang

/-- Pointwise update of a function-modelled array (one C array store). -/
def fupd {α : Type} (f : Nat → α) (i : Nat) (x : α) : Nat → α :=
  fun j => if j = i then x else f j

/-- Adjacency-list graph from `graph.h`: `nVert` vertices, and for each vertex
the list of `(neighbor, isBoegOnly)` edges.  The C struct's `nEdge` count and
directedness tag are not read by any of the traversal algorithms and are
omitted. -/
structure Graph where
  nVert : Nat
  adj : Nat → List (Nat × Bool)

/-- Well-formed graph: every listed neighbor is a real vertex (the C loader
`Graph_init_file` rejects any edge endpoint `≥ nVert`). -/
def Graph.WF (g : Graph) : Prop :=
  ∀ u e, e ∈ g.adj u → e.1 < g.nVert

/-- The player-visible subgraph: drop every edge flagged `isBoegOnly`.  Used to
state that a non-mark-holder BFS never traverses mark-only edges. -/
def Graph.playerView (g : Graph) : Graph :=
  ⟨g.nVert, fun u => (g.adj u).filter (fun e => !e.2)⟩

/-- State of `Graph_BFS_SP`: visited flags, distance and parent arrays, and the
FIFO search list (`linked_list.h` inserts at the head end and pops the oldest
element, i.e. a queue; modelled as a list popped at the front and pushed at the
back). -/
structure BfsState where
  visited : Nat → Bool
  dist : Nat → Int
  par : Nat → Int
  queue : List Nat

/-- Inner neighbor loop of `Graph_BFS_SP`: scan the adjacency list of `cur`,
skipping boeg-only edges when `isBoeg` is false, and visit each unvisited
neighbor (mark it, set distance/parent, enqueue it). -/
def bfsScan (isBoeg : Bool) (cur : Nat) (st : BfsState) :
    List (Nat × Bool) → BfsState
  | [] => st
  | (nb, flag) :: rest =>
    if !isBoeg && flag then bfsScan isBoeg cur st rest
    else if st.visited nb then bfsScan isBoeg cur st rest
    else
      bfsScan isBoeg cur
        { visited := fupd st.visited nb true
          dist := fupd st.dist nb (st.dist cur + 1)
          par := fupd st.par nb (cur : Int)
          queue := st.queue ++ [nb] } rest

/-- Outer loop of `Graph_BFS_SP`: pop the oldest queue element and scan its
adjacency list, until the queue empties.  Each iteration pops exactly one
element and every push marks a previously unvisited vertex, so on a well-formed
graph at most `nVert` iterations ever happen; the fuel is set accordingly by
the wrapper. -/
def bfsLoop (g : Graph) (isBoeg : Bool) : Nat → BfsState → BfsState
  | 0, st => st
  | fuel + 1, st =>
    match st.queue with
    | [] => st
    | cur :: rest =>
      bfsLoop g isBoeg fuel (bfsScan isBoeg cur { st with queue := rest } (g.adj cur))

/-- Initial BFS state for a given source (`Graph_BFS_SP` lines 132-146). -/
def bfsInit (source : Nat) : BfsState :=
  { visited := fun v => if v = source then true else false
    dist := fun v => if v = source then 0 else -1
    par := fun _ => -1
    queue := [source] }

/-- `Graph_BFS_SP`: single-source BFS returning the distance and parent arrays;
`-1` marks an unreached vertex / absent parent.  When `isBoeg` is false,
boeg-only edges are skipped. -/
def Graph_BFS_SP (g : Graph) (isBoeg : Bool) (source : Nat) :
    (Nat → Int) × (Nat → Int) :=
  let st := bfsLoop g isBoeg g.nVert (bfsInit source)
  (st.dist, st.par)

/-- `Graph_BFS_APSP`: all-pairs BFS.  The C code fills flat `nVert * nVert`
arrays indexed `source * nVert + target`; the model decodes that flat index. -/
def Graph_BFS_APSP (g : Graph) (isBoeg : Bool) : (Nat → Int) × (Nat → Int) :=
  (fun k => (Graph_BFS_SP g isBoeg (k / g.nVert)).1 (k % g.nVert),
   fun k => (Graph_BFS_SP g isBoeg (k / g.nVert)).2 (k % g.nVert))

/-- Modelled from the spec: `hashmap.h` is not present under `src/` (only its
callers are).  The spec describes it as a fixed-capacity hash set of distinct
vertex ids over which the strategies iterate by index; it is modelled as a
duplicate-free list in insertion order, `HashMap_insert` being a no-op on an
already-present key. -/
def HashMap_insert (l : List Nat) (v : Nat) : List Nat :=
  if v ∈ l then l else l ++ [v]

mutual
/-- `Graph_DFS_reachable_pos`: visit `u` (mark it), record it if its running
distance equals `distance`, otherwise recurse into each traversable, unvisited
neighbor whose updated running distance stays `≤ distance`; unmark `u` on exit
(backtracking).  `fuel` bounds the recursion depth; the wrapper passes
`distance.toNat + 1`, which never runs out because every recursive call
strictly increases the running distance (see the fuel-indifference theorem). -/
def dfsVisit (g : Graph) (isBoeg : Bool) (fuel : Nat) (distance : Int) (u : Nat)
    (visited : Nat → Bool) (dbuf : Nat → Int) (acc : List Nat) :
    (Nat → Bool) × (Nat → Int) × List Nat :=
  match fuel with
  | 0 => (visited, dbuf, acc)
  | fuel' + 1 =>
    let visited1 := fupd visited u true
    if dbuf u = distance then
      (fupd visited1 u false, dbuf, HashMap_insert acc u)
    else
      let r := dfsEdges g isBoeg fuel' distance u (g.adj u) visited1 dbuf acc
      (fupd r.1 u false, r.2.1, r.2.2)
termination_by (fuel, 0)

/-- Neighbor loop of `Graph_DFS_reachable_pos`. -/
def dfsEdges (g : Graph) (isBoeg : Bool) (fuel : Nat) (distance : Int) (u : Nat)
    (edges : List (Nat × Bool)) (visited : Nat → Bool) (dbuf : Nat → Int)
    (acc : List Nat) : (Nat → Bool) × (Nat → Int) × List Nat :=
  match edges with
  | [] => (visited, dbuf, acc)
  | (nb, flag) :: rest =>
    if !isBoeg && flag then dfsEdges g isBoeg fuel distance u rest visited dbuf acc
    else if visited nb then dfsEdges g isBoeg fuel distance u rest visited dbuf acc
    else
      let dbuf1 := fupd dbuf nb (dbuf u + 1)
      if dbuf1 nb ≤ distance then
        let r := dfsVisit g isBoeg fuel distance nb visited dbuf1 acc
        dfsEdges g isBoeg fuel distance u rest r.1 r.2.1 r.2.2
      else
        dfsEdges g isBoeg fuel distance u rest visited dbuf1 acc
termination_by (fuel, edges.length + 1)
end

/-- `Graph_reachable_pos`: reset the scratch buffers (all unvisited, distance
`-1` except `0` at the source) and run the backtracking DFS, collecting every
vertex reachable from `source` along some simple path of length exactly
`distance`. -/
def Graph_reachable_pos (g : Graph) (isBoeg : Bool) (source : Nat)
    (distance : Int) : List Nat :=
  (dfsVisit g isBoeg (distance.toNat + 1) distance source
    (fun _ => false) (fun v => if v = source then 0 else -1) []).2.2

/-- `__follow_path`: unwind the predecessor chain of `target` (flat parents
array at row offset `off`) down to the tree root, counting vertices from the
root; record the vertex whose step count from the root equals `dist`.  Returns
the count for the current frame and the recorded vertex (`none` models the C
out-parameter still being unassigned).  `fuel` bounds the chain length; the
wrapper passes the vertex count, which suffices for BFS-produced parents. -/
def followAux (par : Nat → Int) (off : Nat) (t : Nat) (d : Nat) :
    Nat → Nat × Option Nat
  | 0 => (1, none)
  | fuel + 1 =>
    if par (off + t) = -1 then (1, none)
    else
      let r := followAux par off (par (off + t)).toNat d fuel
      (r.1 + 1, if r.1 + 1 - 1 = d then some t else r.2)

/-- `follow_path`: the vertex exactly `d` steps along the predecessor-tree walk
from `source` toward `target`.  The C function returns an uninitialized value
when the walk is shorter than `d`; the model returns `0` in that (unused)
case. -/
def follow_path (par : Nat → Int) (source target n : Nat) (d : Nat) : Nat :=
  ((followAux par (source * n) target d n).2).getD 0

/-- The predecessor-tree walk itself, listed from the root to `t`; used to
state what `follow_path` computes. -/
def chainToRoot (par : Nat → Int) (off : Nat) (t : Nat) : Nat → List Nat
  | 0 => []
  | fuel + 1 =>
    if par (off + t) = -1 then [t]
    else chainToRoot par off (par (off + t)).toNat fuel ++ [t]

/-! ## Game-state data model (`game_state.h`) -/

def DIE_SIZE : Nat := 6
def MAX_TURNS : Nat := 100
def BOEG_ID_DEFAULT : Nat := 7
def N_TARGETS : Nat := 40
def N_TARGETS_PLAYER : Nat := 4
def RAND_MAX_C : Nat := 2147483647
def UINT_MOD : Nat := 2 ^ 32

/-- One draw from the injected random source: `rand()` yields a value in
`[0, RAND_MAX]`, modelled by reducing the next injected number; the rest of
the stream is returned alongside. -/
def randC (rng : List Nat) : Nat × List Nat :=
  (rng.headD 0 % (RAND_MAX_C + 1), rng.tail)

/-- `--x` on a C `unsigned int`. -/
def decrWrap (c : Nat) : Nat := (c + (UINT_MOD - 1)) % UINT_MOD

/-- Active-players bitmask macros (`AP_INIT`/`AP_ISSET`/`AP_UNSET`).  The mask
lives in an `int8_t` holding at most `(1 << 6) - 1`, so it is modelled as a
`Nat` below `2^7`; `AP_UNSET`'s `ap & ~(1 << i)` clears bit `i`. -/
def AP_INIT (np : Nat) : Nat := (1 <<< np) - 1

def AP_ISSET (ap i : Nat) : Bool := Nat.testBit ap i

def AP_UNSET (ap i : Nat) : Nat := ap &&& (255 ^^^ (1 <<< i))

/-- One swap of the Fisher-Yates-style `shuffle`:
`j = i + rand() / (RAND_MAX / (n - i) + 1)`, then exchange entries `i` and
`j`. -/
def listSwap (a : List Nat) (i j : Nat) : List Nat :=
  (a.set j (a.getD i 0)).set i (a.getD j 0)

def shuffleStep (n : Nat) (st : List Nat × List Nat) (i : Nat) :
    List Nat × List Nat :=
  let r := (randC st.2).1
  let j := i + r / (RAND_MAX_C / (n - i) + 1)
  (listSwap st.1 i j, (randC st.2).2)

/-- `shuffle`: in-place random permutation of an array of length `n > 1`
(identity otherwise), consuming `n - 1` random draws. -/
def shuffle (a : List Nat) (rng : List Nat) : List Nat × List Nat :=
  if 1 < a.length then (List.range (a.length - 1)).foldl (shuffleStep a.length) (a, rng)
  else (a, rng)

/-- `GameState_t`.  The scratch buffers `visited_buf`/`distances_buf` are
reinitialized from scratch by every reachability query (`Graph_reachable_pos`
lines 245-252), so they carry no information between calls and are modelled
inside the query itself. -/
structure GameState where
  targets : List Nat
  player_pos : List Nat
  player_targets : List Nat
  player_targets_left : List Nat
  player_order : List Nat
  boeg_pos : Nat
  boeg_id : Nat
  nPlayers : Nat
  active_players : Nat
deriving DecidableEq

/-- `BoardInfo_t` minus the rendering-only location tables: the two graphs and
the flat all-pairs distance/parent arrays. -/
structure BoardInfo where
  graph_player : Graph
  graph_boeg : Graph
  dist_player : Nat → Int
  dist_boeg : Nat → Int
  par_player : Nat → Int
  par_boeg : Nat → Int
  nPositions : Nat

/-- `BoardInfo_init` after file parsing (out of scope): both graphs share the
vertex count and the four flat arrays are filled by all-pairs BFS, the player
graph traversed without and the full graph with mark-holder rights. -/
def BoardInfo_make (gp gb : Graph) : BoardInfo :=
  { graph_player := gp
    graph_boeg := gb
    dist_player := (Graph_BFS_APSP gp false).1
    par_player := (Graph_BFS_APSP gp false).2
    dist_boeg := (Graph_BFS_APSP gb true).1
    par_boeg := (Graph_BFS_APSP gb true).2
    nPositions := gp.nVert }

/-- Random placement loop of `GameState_init`/`GameState_reset`: each player in
index order gets `rand() % (nPositions - N_TARGETS) + N_TARGETS`. -/
def placePlayers (nPlayers nPositions : Nat) (rng : List Nat) :
    List Nat × List Nat :=
  (List.range nPlayers).foldl
    (fun st _ => (st.1 ++ [(randC st.2).1 % (nPositions - N_TARGETS) + N_TARGETS], (randC st.2).2))
    ([], rng)

/-- `GameState_init`: shuffle the player order, shuffle the 40-entry target
pool, deal 4 consecutive pool entries to each player (`player_targets[k] =
targets[k]` for `k < 4 * nPlayers`), put the mark on the next pool entry,
place each player uniformly on a non-target vertex, and start with every
player active, 4 targets each, and the mark unheld. -/
def GameState_init (nPlayers nPositions : Nat) (rng : List Nat) :
    GameState × List Nat :=
  let o := shuffle (List.range nPlayers) rng
  let t := shuffle (List.range N_TARGETS) o.2
  let pt := (List.range (nPlayers * N_TARGETS_PLAYER)).map (fun k => t.1.getD k 0)
  let bp := t.1.getD (nPlayers * N_TARGETS_PLAYER) 0
  let pp := placePlayers nPlayers nPositions t.2
  ({ targets := t.1
     player_pos := pp.1
     player_targets := pt
     player_targets_left := List.replicate nPlayers N_TARGETS_PLAYER
     player_order := o.1
     boeg_pos := bp
     boeg_id := BOEG_ID_DEFAULT
     nPlayers := nPlayers
     active_players := AP_INIT nPlayers }, pp.2)

/-- `opponent_at_target`: some other active player stands on `target`. -/
def opponent_at_target (gs : GameState) (target : Nat) (pid : Nat) : Bool :=
  (List.range gs.nPlayers).any
    (fun j => !(j == pid) && AP_ISSET gs.active_players j && (gs.player_pos.getD j 0 == target))

inductive STATUS where
  | CONTINUE
  | GAMEOVER
  | INVALID
deriving DecidableEq

inductive MOVE_STRATEGY where
  | GREEDY
  | AVOIDANT
  | USER_COMMAND
deriving DecidableEq

/-- Shared capture step of the mark-holder branches: move the mark onto the
captured target, invalidate the target slot with the `N_TARGETS` sentinel,
decrement the remaining-target count, and signal `GAMEOVER` exactly when it
reaches zero. -/
def applyCapture (gs : GameState) (pid slot target : Nat) : STATUS × GameState :=
  let c := decrWrap (gs.player_targets_left.getD pid 0)
  let gs' := { gs with
    boeg_pos := target
    player_targets := gs.player_targets.set (pid * N_TARGETS_PLAYER + slot) N_TARGETS
    player_targets_left := gs.player_targets_left.set pid c }
  (if c = 0 then STATUS.GAMEOVER else STATUS.CONTINUE, gs')

/-- Target-scan loop of the greedy mark-holder branch (`GameState_move_greedy`
lines 454-489): walk the four target slots; capture the first valid,
unoccupied target within the roll; meanwhile track the minimum-distance target
among those strictly out of reach (occupied in-reach targets are skipped
without updating the minimum).  `.inl (slot, target)` is a capture, `.inr`
carries the `(min_dist, min_target)` accumulators. -/
def greedyScanAux (binfo : BoardInfo) (gs : GameState) (pid roll : Nat) :
    List Nat → Int → Nat → Sum (Nat × Nat) (Int × Nat)
  | [], md, mt => .inr (md, mt)
  | i :: rest, md, mt =>
    let target := gs.player_targets.getD (pid * N_TARGETS_PLAYER + i) 0
    if target = N_TARGETS then greedyScanAux binfo gs pid roll rest md mt
    else
      let dist := binfo.dist_boeg (gs.boeg_pos * binfo.nPositions + target)
      if (roll : Int) ≥ dist then
        if opponent_at_target gs target pid then greedyScanAux binfo gs pid roll rest md mt
        else .inl (i, target)
      else
        if dist < md then greedyScanAux binfo gs pid roll rest dist target
        else greedyScanAux binfo gs pid roll rest md mt

/-- Sum of shortest boeg-graph distances from candidate `j` to the remaining
(non-sentinel) targets of `pid` (`sum_dists` loop, lines 524-534). -/
def sumTargetDists (binfo : BoardInfo) (gs : GameState) (pid j : Nat) : Int :=
  (List.range N_TARGETS_PLAYER).foldl
    (fun s i =>
      let target := gs.player_targets.getD (pid * N_TARGETS_PLAYER + i) 0
      if target = N_TARGETS then s
      else s + binfo.dist_boeg (j * binfo.nPositions + target)) 0

/-- Greedy fallback selection (lines 502-541): over the reachable candidates,
skip opponent-occupied ones and keep the first candidate attaining the minimum
`sumTargetDists`; `nPositions` is the not-found sentinel and `RAND_MAX` the
initial minimum. -/
def selectMinSum (binfo : BoardInfo) (gs : GameState) (pid : Nat)
    (cands : List Nat) : Nat :=
  (cands.foldl
    (fun st j =>
      if opponent_at_target gs j pid then st
      else
        let s := sumTargetDists binfo gs pid j
        if s < st.1 then (s, j) else st)
    ((RAND_MAX_C : Int), binfo.nPositions)).2

/-- Mark-holder branch of `GameState_move_greedy` (lines 449-560). -/
def GameState_move_greedy_boeg (binfo : BoardInfo) (gs : GameState)
    (pid roll : Nat) : STATUS × GameState :=
  match greedyScanAux binfo gs pid roll [0, 1, 2, 3] (RAND_MAX_C : Int) N_TARGETS with
  | .inl (i, t) => applyCapture gs pid i t
  | .inr (_, min_target) =>
    let cp := follow_path binfo.par_boeg gs.boeg_pos min_target binfo.nPositions roll
    let closest :=
      if min_target = N_TARGETS ∨ opponent_at_target gs cp pid then
        selectMinSum binfo gs pid
          (Graph_reachable_pos binfo.graph_boeg true gs.boeg_pos (roll : Int))
      else cp
    if closest ≠ binfo.nPositions then (STATUS.CONTINUE, { gs with boeg_pos := closest })
    else (STATUS.CONTINUE, gs)

/-- `GameState_move_greedy`.  Each call first rolls the die, consuming the head
of the injected roll stream (`none` when the stream is exhausted; the C code
draws from a global generator that never runs dry).  A non-mark-holder whose
shortest distance to the mark is within the roll steps onto it, becomes the
mark holder and immediately moves again (the tail call, with a fresh roll);
otherwise they advance exactly `roll` steps along the predecessor-tree walk
toward the mark. -/
def GameState_move_greedy (binfo : BoardInfo) (gs : GameState) (pid : Nat) :
    List Nat → Option (STATUS × GameState × List Nat)
  | [] => none
  | r :: rest =>
    let roll := r % (RAND_MAX_C + 1) % DIE_SIZE + 1
    if pid = gs.boeg_id then
      let m := GameState_move_greedy_boeg binfo gs pid roll
      some (m.1, m.2, rest)
    else
      let current := gs.player_pos.getD pid 0
      let dist := binfo.dist_player (current * binfo.nPositions + gs.boeg_pos)
      if (roll : Int) ≥ dist then
        GameState_move_greedy binfo
          { gs with player_pos := gs.player_pos.set pid gs.boeg_pos, boeg_id := pid }
          pid rest
      else
        some (STATUS.CONTINUE,
          { gs with player_pos :=
              gs.player_pos.set pid (follow_path binfo.par_player current gs.boeg_pos binfo.nPositions roll) },
          rest)

/-- Opponent-proximity denominator of the avoidant objective: the shortest
player-graph distance from opponent `i` to candidate `j`, doubled when the
opponent cannot reach `j` within one die roll.  C computes in `double`;
modelled with exact rationals. -/
def avoidDenom (binfo : BoardInfo) (gs : GameState) (i j : Nat) : ℚ :=
  let od := binfo.dist_player (gs.player_pos.getD i 0 * binfo.nPositions + j)
  if od > (DIE_SIZE : Int) then 2 * (od : ℚ) else (od : ℚ)

/-- Avoidant objective for candidate `j` (lines 672-710): the sum of shortest
boeg-graph distances from `j` to the remaining targets, plus
`avoidance / denom` for every other active player. -/
def avoidObjective (binfo : BoardInfo) (gs : GameState) (pid j : Nat)
    (avoidance : ℚ) : ℚ :=
  let base := (List.range N_TARGETS_PLAYER).foldl
    (fun o i =>
      let target := gs.player_targets.getD (pid * N_TARGETS_PLAYER + i) 0
      if target = N_TARGETS then o
      else o + ((binfo.dist_boeg (j * binfo.nPositions + target) : ℚ))) 0
  (List.range gs.nPlayers).foldl
    (fun o i =>
      if i = pid ∨ AP_ISSET gs.active_players i = false then o
      else o + avoidance / avoidDenom binfo gs i j) base

/-- Avoidant candidate selection (lines 651-717): first unoccupied candidate
attaining the minimum objective; `none` models the initial `INFINITY` bound
and `nPositions` the not-found sentinel. -/
def selectMinObjective (binfo : BoardInfo) (gs : GameState) (pid : Nat)
    (avoidance : ℚ) (cands : List Nat) : Nat :=
  (cands.foldl
    (fun (st : Option ℚ × Nat) j =>
      if opponent_at_target gs j pid then st
      else
        let ob := avoidObjective binfo gs pid j avoidance
        match st.1 with
        | none => (some ob, j)
        | some m => if ob < m then (some ob, j) else st)
    (none, binfo.nPositions)).2

/-- Target-scan loop of the avoidant mark-holder branch (lines 617-647):
capture the first valid, in-reach, unoccupied target; no minimum tracking. -/
def avoidantScanAux (binfo : BoardInfo) (gs : GameState) (pid roll : Nat) :
    List Nat → Option (Nat × Nat)
  | [] => none
  | i :: rest =>
    let target := gs.player_targets.getD (pid * N_TARGETS_PLAYER + i) 0
    if target = N_TARGETS then avoidantScanAux binfo gs pid roll rest
    else
      let dist := binfo.dist_boeg (gs.boeg_pos * binfo.nPositions + target)
      if (roll : Int) ≥ dist && !(opponent_at_target gs target pid) then some (i, target)
      else avoidantScanAux binfo gs pid roll rest

/-- Mark-holder branch of `GameState_move_avoidant` (lines 612-735). -/
def GameState_move_avoidant_boeg (binfo : BoardInfo) (gs : GameState)
    (pid roll : Nat) (avoidance : ℚ) : STATUS × GameState :=
  match avoidantScanAux binfo gs pid roll [0, 1, 2, 3] with
  | some (i, t) => applyCapture gs pid i t
  | none =>
    let optimal := selectMinObjective binfo gs pid avoidance
      (Graph_reachable_pos binfo.graph_boeg true gs.boeg_pos (roll : Int))
    if optimal ≠ binfo.nPositions then (STATUS.CONTINUE, { gs with boeg_pos := optimal })
    else (STATUS.CONTINUE, gs)

/-- `GameState_move_avoidant`: same non-mark-holder logic as the greedy
strategy, avoidant mark-holder branch. -/
def GameState_move_avoidant (binfo : BoardInfo) (gs : GameState) (pid : Nat)
    (avoidance : ℚ) : List Nat → Option (STATUS × GameState × List Nat)
  | [] => none
  | r :: rest =>
    let roll := r % (RAND_MAX_C + 1) % DIE_SIZE + 1
    if pid = gs.boeg_id then
      let m := GameState_move_avoidant_boeg binfo gs pid roll avoidance
      some (m.1, m.2, rest)
    else
      let current := gs.player_pos.getD pid 0
      let dist := binfo.dist_player (current * binfo.nPositions + gs.boeg_pos)
      if (roll : Int) ≥ dist then
        GameState_move_avoidant binfo
          { gs with player_pos := gs.player_pos.set pid gs.boeg_pos, boeg_id := pid }
          pid avoidance rest
      else
        some (STATUS.CONTINUE,
          { gs with player_pos :=
              gs.player_pos.set pid (follow_path binfo.par_player current gs.boeg_pos binfo.nPositions roll) },
          rest)

/-- `GameState_move`: dispatch on the strategy.  The interactive strategy
(`GameState_move_command`) loops on terminal input and is not modelled; the
driver theorems below assume AI-only strategy lists, as does the statistics
mode in the source. -/
def GameState_move (binfo : BoardInfo) (gs : GameState) (pid : Nat)
    (avoidance : ℚ) (strat : MOVE_STRATEGY) (rolls : List Nat) :
    Option (STATUS × GameState × List Nat) :=
  match strat with
  | .GREEDY => GameState_move_greedy binfo gs pid rolls
  | .AVOIDANT => GameState_move_avoidant binfo gs pid avoidance rolls
  | .USER_COMMAND => none

/-! ## Driver (`GameState_run`) -/

/-- Loop state of `GameState_run`: the mutable game state, the remaining roll
stream, and the locals `winner`, `ranking` (its length is the C `nFinished`)
and the decided flag (the C `goto end`). -/
structure RunState where
  gs : GameState
  rolls : List Nat
  winner : Int
  ranking : List Nat
  done : Bool
deriving DecidableEq

/-- Last-place search (lines 1056-1061): the first player index still in the
active mask. -/
def lastActive (gs : GameState) : List Nat :=
  match (List.range gs.nPlayers).find? (fun j => AP_ISSET gs.active_players j) with
  | some j => [j]
  | none => []

/-- One player's slot inside a round (lines 1023-1067): skip finished players,
run the player's strategy, and on `GAMEOVER` record the winner (first finisher
only), release the mark, deactivate the player, extend the ranking, and if
only one player remains append them and end the game. -/
def playerStep (binfo : BoardInfo) (strats : List MOVE_STRATEGY)
    (avoidance : ℚ) (st : RunState) (pid : Nat) : Option RunState :=
  if st.done then some st
  else if AP_ISSET st.gs.active_players pid = false then some st
  else
    match GameState_move binfo st.gs pid avoidance (strats.getD pid .GREEDY) st.rolls with
    | none => none
    | some (status, gs', rolls') =>
      if status = STATUS.GAMEOVER then
        let winner' := if st.ranking.length = 0 then (pid : Int) else st.winner
        let gs'' := { gs' with
          boeg_id := BOEG_ID_DEFAULT
          active_players := AP_UNSET gs'.active_players pid }
        let ranking' := st.ranking ++ [pid]
        if ranking'.length = gs''.nPlayers - 1 then
          some { gs := gs'', rolls := rolls', winner := winner',
                 ranking := ranking' ++ lastActive gs'', done := true }
        else
          some { gs := gs'', rolls := rolls', winner := winner',
                 ranking := ranking', done := false }
      else
        some { st with gs := gs', rolls := rolls' }

/-- One round: every player in the per-game turn order takes their slot. -/
def roundAux (binfo : BoardInfo) (strats : List MOVE_STRATEGY) (avoidance : ℚ) :
    RunState → List Nat → Option RunState
  | st, [] => some st
  | st, i :: rest =>
    match playerStep binfo strats avoidance st (st.gs.player_order.getD i 0) with
    | none => none
    | some st' => roundAux binfo strats avoidance st' rest

def roundStep (binfo : BoardInfo) (strats : List MOVE_STRATEGY) (avoidance : ℚ)
    (st : RunState) : Option RunState :=
  roundAux binfo strats avoidance st (List.range st.gs.nPlayers)

/-- Round loop of `GameState_run`: `remaining` counts the rounds left before
the cap (`MAX_TURNS - nTurns`), `nTurns` is the C round counter starting at 1;
a decided game returns immediately with the current `nTurns`. -/
def runAux (binfo : BoardInfo) (strats : List MOVE_STRATEGY) (avoidance : ℚ) :
    Nat → Nat → RunState → Option (RunState × Nat)
  | 0, nTurns, st => some (st, nTurns)
  | rem + 1, nTurns, st =>
    match roundStep binfo strats avoidance st with
    | none => none
    | some st' =>
      if st'.done then some (st', nTurns)
      else runAux binfo strats avoidance rem (nTurns + 1) st'

structure GameResult where
  winner : Int
  nTurns : Nat
deriving DecidableEq

/-- `GameState_run`: play rounds until a game is decided or the 100-round cap
is hit; `winner = -1` reports a non-terminating game (a warning in the source,
not an abort).  The final loop state is returned alongside the C result struct
(the C code mutates `gstate` in place). -/
def GameState_run (binfo : BoardInfo) (gs : GameState)
    (strats : List MOVE_STRATEGY) (rolls : List Nat) :
    Option (GameResult × RunState) :=
  match runAux binfo strats 40 (MAX_TURNS - 1) 1
      { gs := gs, rolls := rolls, winner := -1, ranking := [], done := false } with
  | none => none
  | some (st, n) => some ({ winner := st.winner, nTurns := n }, st)

/-! ## Specification predicates -/

/-- Number of visited vertices among the `n` board vertices. -/
def visCount (n : Nat) (f : Nat → Bool) : Nat :=
  ((Finset.range n).filter (fun v => f v = true)).card

/-- Invariant of the BFS state, relative to graph `g` and source `s`:
the source is visited at distance `0` with no parent; unvisited vertices keep
the `-1` sentinels; visited vertices are real vertices at nonnegative distance
bounded by the number of visited vertices; every visited non-source vertex has
a visited parent one step closer; and every queued vertex is visited. -/
structure BfsInv (g : Graph) (s : Nat) (st : BfsState) : Prop where
  vis_src : st.visited s = true
  dist_src : st.dist s = 0
  par_src : st.par s = -1
  unvis : ∀ v, st.visited v = false → st.dist v = -1 ∧ st.par v = -1
  vis_dist : ∀ v, st.visited v = true →
    0 ≤ st.dist v ∧ v < g.nVert ∧ (st.dist v).toNat + 1 ≤ visCount g.nVert st.visited
  vis_par : ∀ v, st.visited v = true → v ≠ s →
    ∃ u : Nat, st.par v = (u : Int) ∧ st.visited u = true ∧ st.dist v = st.dist u + 1
  queue_vis : ∀ q ∈ st.queue, st.visited q = true

/-- One traversable edge step: `b` is listed among `a`'s neighbors and the
edge is usable by the caller (any edge for the mark holder, non-mark-only
otherwise). -/
def adjacentB (g : Graph) (isBoeg : Bool) (a b : Nat) : Prop :=
  ∃ f, (b, f) ∈ g.adj a ∧ (isBoeg = true ∨ f = false)

/-- A simple path from `u` to `v`: a duplicate-free vertex list starting at
`u`, ending at `v`, with consecutive vertices joined by traversable edges. -/
def IsSimplePath (g : Graph) (isBoeg : Bool) (p : List Nat) (u v : Nat) : Prop :=
  p.head? = some u ∧ p.getLast? = some v ∧ p.Nodup ∧ List.Chain' (adjacentB g isBoeg) p

/-- Build a graph from an explicit adjacency table (used for the concrete
boards in the witnesses; `Graph_init_file` parsing itself is out of scope). -/
def mkGraph (l : List (List (Nat × Bool))) : Graph :=
  ⟨l.length, fun u => l.getD u []⟩

/-- Concrete 5-vertex board: an undirected path `0-1-2-3-4` plus a boeg-only
chord `0-4`. -/
def gEx : Graph := mkGraph
  [[(1, false), (4, true)],
   [(0, false), (2, false)],
   [(1, false), (3, false)],
   [(2, false), (4, false)],
   [(3, false), (0, true)]]

/-- Concrete 5-vertex player graph: an undirected path `0-1-2-3-4`. -/
def gExP : Graph := mkGraph
  [[(1, false)],
   [(0, false), (2, false)],
   [(1, false), (3, false)],
   [(2, false), (4, false)],
   [(3, false)]]

/-- Concrete 5-vertex full (boeg) graph: the path plus the chord `0-4`. -/
def gExB : Graph := mkGraph
  [[(1, false), (4, false)],
   [(0, false), (2, false)],
   [(1, false), (3, false)],
   [(2, false), (4, false)],
   [(3, false), (0, false)]]

/-- Concrete 5-vertex player graph with vertices 2-4 isolated (so the mark can
be player-unreachable). -/
def gExQ : Graph := mkGraph
  [[(1, false)],
   [(0, false)],
   [],
   [],
   []]

def binfoEx : BoardInfo := BoardInfo_make gExP gExB

def binfoExQ : BoardInfo := BoardInfo_make gExQ gExB

/-- Concrete 3-player state on the 5-vertex boards, used by the witnesses. -/
def gsEx : GameState :=
  { targets := List.range N_TARGETS
    player_pos := [0, 1, 3]
    player_targets := [0, 1, 2, 3, 4, 5, 6, 7, 8, 9, 10, 11]
    player_targets_left := [4, 4, 4]
    player_order := [0, 1, 2]
    boeg_pos := 4
    boeg_id := BOEG_ID_DEFAULT
    nPlayers := 3
    active_players := 7 }

/-- Concrete state for the avoidant mark-holder witness: player 0 holds the
mark at vertex 4 and all of their remaining targets sit two steps away, out of
reach of a roll of 1, so no target is captured directly. -/
def gsEx5 : GameState :=
  { targets := List.range N_TARGETS
    player_pos := [0, 1, 3]
    player_targets := [1, 1, 2, 2, 4, 5, 6, 7, 8, 9, 10, 11]
    player_targets_left := [4, 4, 4]
    player_order := [0, 1, 2]
    boeg_pos := 4
    boeg_id := 0
    nPlayers := 3
    active_players := 7 }

/-- State well-formedness carried through the driver: a positive player count
fitting the 8-bit active mask, a targets-left slot per player, and a turn
order listing only real player indices. -/
def StateWF (gs : GameState) : Prop :=
  0 < gs.nPlayers ∧ gs.nPlayers ≤ 8 ∧
  gs.player_targets_left.length = gs.nPlayers ∧
  (∀ x ∈ gs.player_order, x < gs.nPlayers)

/-- Claim C7's invariant: the mark is unheld (sentinel `boeg_id`) or held by an
active player, and a player's active bit is set exactly while their
remaining-target count is nonzero. -/
def StateInv (gs : GameState) : Prop :=
  (gs.boeg_id = BOEG_ID_DEFAULT ∨
    (gs.boeg_id < gs.nPlayers ∧ AP_ISSET gs.active_players gs.boeg_id = true)) ∧
  (∀ p, p < gs.nPlayers →
    (AP_ISSET gs.active_players p = true ↔ gs.player_targets_left.getD p 0 ≠ 0))

/-- Frame of a single strategy move by `pid`: the player count, active mask
and turn order are untouched, other players' target counts are untouched, the
mark holder only ever changes to the mover, a `GAMEOVER` report pins the
mover's count at zero with the mover holding the mark, and any other report
leaves the mover's count unchanged or nonzero. -/
def MoveFrame (gs gs' : GameState) (pid : Nat) (status : STATUS) : Prop :=
  gs'.nPlayers = gs.nPlayers ∧
  gs'.active_players = gs.active_players ∧
  gs'.player_order = gs.player_order ∧
  gs'.player_targets_left.length = gs.player_targets_left.length ∧
  (∀ q, q ≠ pid →
    gs'.player_targets_left.getD q 0 = gs.player_targets_left.getD q 0) ∧
  (gs'.boeg_id = gs.boeg_id ∨ gs'.boeg_id = pid) ∧
  (status = STATUS.GAMEOVER →
    (pid < gs.player_targets_left.length →
      gs'.player_targets_left.getD pid 0 = 0) ∧ gs'.boeg_id = pid) ∧
  (status ≠ STATUS.GAMEOVER →
    gs'.player_targets_left.getD pid 0 = gs.player_targets_left.getD pid 0 ∨
    gs'.player_targets_left.getD pid 0 ≠ 0)

/-- Driver-loop invariant (claims C2 and C7): the game state stays well-formed
and satisfies C7's invariant, `winner` is `-1` exactly while nobody has
finished, and otherwise `winner` is the ranking's first entry: a finished,
deactivated player. -/
def RunInv (st : RunState) : Prop :=
  StateWF st.gs ∧ StateInv st.gs ∧
  (st.winner = -1 ↔ st.ranking = []) ∧
  (st.ranking ≠ [] → st.winner = ((st.ranking.headD 0 : Nat) : Int)) ∧
  (st.ranking ≠ [] → st.ranking.headD 0 < st.gs.nPlayers ∧
    AP_ISSET st.gs.active_players (st.ranking.headD 0) = false)

/-- Concrete 3-player state for the driver witnesses: players 0 and 1 are one
capture away from finishing and player 2 has already finished; the mark sits
at vertex 4 held by player 0. -/
def gsExRun : GameState :=
  { targets := []
    player_pos := [2, 1, 3]
    player_targets := [0, 40, 40, 40, 1, 40, 40, 40, 40, 40, 40, 40]
    player_targets_left := [1, 1, 0]
    player_order := [0, 1, 2]
    boeg_pos := 4
    boeg_id := 0
    nPlayers := 3
    active_players := 3 }

/-- A predecessor chain of the parents array `p` (row offset `off`): the walk
from a tree root (parent `-1`) down to its last vertex, each vertex's parent
entry pointing at its predecessor in the list. -/
inductive ParChain (p : Nat → Int) (off : Nat) : List Nat → Nat → Prop where
  | root (t : Nat) : p (off + t) = -1 → ParChain p off [t] t
  | cons (c : List Nat) (u t : Nat) :
      ParChain p off c u → p (off + t) = (u : Int) → ParChain p off (c ++ [t]) t

end Fang

namespace Fang

/-! ## Basic lemmas about the function-array model -/

theorem fupd_self {α : Type} (f : Nat → α) (i : Nat) (x : α) : fupd f i x i = x := by
  simp [fupd]

theorem fupd_ne {α : Type} (f : Nat → α) (i j : Nat) (x : α) (h : j ≠ i) :
    fupd f i x j = f j := by
  simp [fupd, h]

theorem visCount_le (n : Nat) (f : Nat → Bool) : visCount n f ≤ n := by
  calc ((Finset.range n).filter (fun v => f v = true)).card
      ≤ (Finset.range n).card := Finset.card_filter_le _ _
    _ = n := Finset.card_range n

theorem visCount_fupd (n : Nat) (f : Nat → Bool) (v : Nat) (hv : v < n)
    (hf : f v = false) : visCount n (fupd f v true) = visCount n f + 1 := by
  have hset : (Finset.range n).filter (fun x => fupd f v true x = true) =
      insert v ((Finset.range n).filter (fun x => f x = true)) := by
    ext x
    by_cases hx : x = v
    · subst hx
      simp [fupd, hv, Finset.mem_filter, Finset.mem_range]
    · simp [fupd, hx, Finset.mem_filter, Finset.mem_range]
  have hnotmem : v ∉ (Finset.range n).filter (fun x => f x = true) := by
    simp [Finset.mem_filter, hf]
  simp [visCount, hset, Finset.card_insert_of_not_mem hnotmem]

theorem visCount_mono (n : Nat) (f f' : Nat → Bool)
    (h : ∀ v, f v = true → f' v = true) : visCount n f ≤ visCount n f' := by
  apply Finset.card_le_card
  intro x hx
  simp only [Finset.mem_filter, Finset.mem_range] at hx ⊢
  exact ⟨hx.1, h x hx.2⟩

/-! ## BFS invariant preservation (claim C3 and consequences) -/

theorem bfsScan_visited_mono (isBoeg : Bool) (cur : Nat) (st : BfsState)
    (edges : List (Nat × Bool)) :
    ∀ v, st.visited v = true → (bfsScan isBoeg cur st edges).visited v = true := by
  induction edges generalizing st with
  | nil => intro v hv; simpa [bfsScan] using hv
  | cons e rest ih =>
    intro v hv
    obtain ⟨nb, flag⟩ := e
    simp only [bfsScan]
    split
    · exact ih st v hv
    · split
      · exact ih st v hv
      · apply ih
        by_cases hveq : v = nb
        · simp [hveq, fupd_self]
        · simpa [fupd_ne _ _ _ _ hveq] using hv

theorem bfsScan_inv (g : Graph) (s : Nat) (isBoeg : Bool) (cur : Nat)
    (st : BfsState) (edges : List (Nat × Bool))
    (hcur : st.visited cur = true)
    (hedges : ∀ e ∈ edges, e.1 < g.nVert)
    (hinv : BfsInv g s st) : BfsInv g s (bfsScan isBoeg cur st edges) := by
  induction edges generalizing st with
  | nil => simpa [bfsScan] using hinv
  | cons e rest ih =>
    obtain ⟨nb, flag⟩ := e
    have hrest : ∀ e ∈ rest, e.1 < g.nVert := fun e he => hedges e (List.mem_cons_of_mem _ he)
    have hnb : nb < g.nVert := (hedges (nb, flag) (List.mem_cons_self _ _))
    simp only [bfsScan]
    split
    · exact ih st hcur hrest hinv
    · split
      · exact ih st hcur hrest hinv
      · rename_i hskip hnbvis
        have hnbvis' : st.visited nb = false := by
          simpa using hnbvis
        have hcurne : cur ≠ nb := by
          intro h; rw [h] at hcur; rw [hcur] at hnbvis'; cases hnbvis'
        have hsne : s ≠ nb := by
          intro h
          have hv := hinv.vis_src
          rw [h] at hv; rw [hv] at hnbvis'; cases hnbvis'
        set st' : BfsState :=
          { visited := fupd st.visited nb true
            dist := fupd st.dist nb (st.dist cur + 1)
            par := fupd st.par nb (cur : Int)
            queue := st.queue ++ [nb] } with hst'
        have hcount : visCount g.nVert st'.visited = visCount g.nVert st.visited + 1 :=
          visCount_fupd g.nVert st.visited nb hnb hnbvis'
        have hdistcur : 0 ≤ st.dist cur ∧ cur < g.nVert ∧
            (st.dist cur).toNat + 1 ≤ visCount g.nVert st.visited := hinv.vis_dist cur hcur
        have hinv' : BfsInv g s st' := by
          refine ⟨?_, ?_, ?_, ?_, ?_, ?_, ?_⟩
          · show fupd st.visited nb true s = true
            rw [fupd_ne _ _ _ _ hsne]; exact hinv.vis_src
          · show fupd st.dist nb (st.dist cur + 1) s = 0
            rw [fupd_ne _ _ _ _ hsne]; exact hinv.dist_src
          · show fupd st.par nb (cur : Int) s = -1
            rw [fupd_ne _ _ _ _ hsne]; exact hinv.par_src
          · intro v hv
            have hvne : v ≠ nb := by
              intro h; subst h
              rw [show st'.visited v = true from fupd_self _ _ _] at hv; cases hv
            have : st.visited v = false := by
              have := hv; rwa [show st'.visited v = fupd st.visited nb true v from rfl,
                fupd_ne _ _ _ _ hvne] at this
            have h2 := hinv.unvis v this
            constructor
            · show fupd st.dist nb (st.dist cur + 1) v = -1
              rw [fupd_ne _ _ _ _ hvne]; exact h2.1
            · show fupd st.par nb (cur : Int) v = -1
              rw [fupd_ne _ _ _ _ hvne]; exact h2.2
          · intro v hv
            by_cases hvne : v = nb
            · subst hvne
              refine ⟨?_, hnb, ?_⟩
              · show 0 ≤ fupd st.dist v (st.dist cur + 1) v
                rw [fupd_self]; omega
              · show (fupd st.dist v (st.dist cur + 1) v).toNat + 1 ≤
                  visCount g.nVert st'.visited
                rw [fupd_self, hcount]
                have h1 := hdistcur.2.2
                have h0 := hdistcur.1
                omega
            · have hvold : st.visited v = true := by
                have := hv; rwa [show st'.visited v = fupd st.visited nb true v from rfl,
                  fupd_ne _ _ _ _ hvne] at this
              have h2 := hinv.vis_dist v hvold
              refine ⟨?_, h2.2.1, ?_⟩
              · show 0 ≤ fupd st.dist nb (st.dist cur + 1) v
                rw [fupd_ne _ _ _ _ hvne]; exact h2.1
              · show (fupd st.dist nb (st.dist cur + 1) v).toNat + 1 ≤
                  visCount g.nVert st'.visited
                rw [fupd_ne _ _ _ _ hvne, hcount]
                omega
          · intro v hv hvs
            by_cases hvne : v = nb
            · subst hvne
              refine ⟨cur, ?_, ?_, ?_⟩
              · show fupd st.par v (cur : Int) v = (cur : Int)
                rw [fupd_self]
              · show fupd st.visited v true cur = true
                rw [fupd_ne _ _ _ _ hcurne]; exact hcur
              · show fupd st.dist v (st.dist cur + 1) v =
                  fupd st.dist v (st.dist cur + 1) cur + 1
                rw [fupd_self, fupd_ne _ _ _ _ hcurne]
            · have hvold : st.visited v = true := by
                have := hv; rwa [show st'.visited v = fupd st.visited nb true v from rfl,
                  fupd_ne _ _ _ _ hvne] at this
              obtain ⟨u, hu1, hu2, hu3⟩ := hinv.vis_par v hvold hvs
              have hune : u ≠ nb := by
                intro h; subst h; rw [hu2] at hnbvis'; cases hnbvis'
              refine ⟨u, ?_, ?_, ?_⟩
              · show fupd st.par nb (cur : Int) v = (u : Int)
                rw [fupd_ne _ _ _ _ hvne]; exact hu1
              · show fupd st.visited nb true u = true
                rw [fupd_ne _ _ _ _ hune]; exact hu2
              · show fupd st.dist nb (st.dist cur + 1) v =
                  fupd st.dist nb (st.dist cur + 1) u + 1
                rw [fupd_ne _ _ _ _ hvne, fupd_ne _ _ _ _ hune]; exact hu3
          · intro q hq
            rcases List.mem_append.1 hq with hq1 | hq2
            · have := hinv.queue_vis q hq1
              by_cases hqe : q = nb
              · subst hqe; exact fupd_self _ _ _
              · show fupd st.visited nb true q = true
                rw [fupd_ne _ _ _ _ hqe]; exact this
            · have : q = nb := by simpa using hq2
              subst this; exact fupd_self _ _ _
        have hcur' : st'.visited cur = true := by
          show fupd st.visited nb true cur = true
          rw [fupd_ne _ _ _ _ hcurne]; exact hcur
        exact ih st' hcur' hrest hinv'

theorem bfsLoop_inv (g : Graph) (s : Nat) (isBoeg : Bool) (hWF : g.WF)
    (fuel : Nat) (st : BfsState) (hinv : BfsInv g s st) :
    BfsInv g s (bfsLoop g isBoeg fuel st) := by
  induction fuel generalizing st with
  | zero => simpa [bfsLoop] using hinv
  | succ fuel ih =>
    rcases hq : st.queue with _ | ⟨cur, rest⟩
    · simp only [bfsLoop, hq]
      exact hinv
    · simp only [bfsLoop, hq]
      have hcur : st.visited cur = true :=
        hinv.queue_vis cur (by rw [hq]; exact List.mem_cons_self _ _)
      have hinvq : BfsInv g s { st with queue := rest } := by
        refine ⟨hinv.vis_src, hinv.dist_src, hinv.par_src, hinv.unvis, hinv.vis_dist,
          ?_, ?_⟩
        · intro v hv hvs
          exact hinv.vis_par v hv hvs
        · intro q hqm
          exact hinv.queue_vis q (by rw [hq]; exact List.mem_cons_of_mem _ hqm)
      exact ih _ (bfsScan_inv g s isBoeg cur { st with queue := rest } (g.adj cur)
        hcur (fun e he => hWF cur e he) hinvq)

theorem bfsInit_inv (g : Graph) (s : Nat) (hs : s < g.nVert) :
    BfsInv g s (bfsInit s) := by
  have hone : 1 ≤ visCount g.nVert (bfsInit s).visited := by
    have hmem : s ∈ (Finset.range g.nVert).filter
        (fun v => (bfsInit s).visited v = true) := by
      simp [Finset.mem_filter, Finset.mem_range, hs, bfsInit]
    have hpos := Finset.card_pos.2 ⟨s, hmem⟩
    simpa [visCount] using hpos
  refine ⟨by simp [bfsInit], by simp [bfsInit], rfl, ?_, ?_, ?_, ?_⟩
  · intro v hv
    by_cases h : v = s
    · rw [h] at hv; simp [bfsInit] at hv
    · exact ⟨by simp [bfsInit, h], rfl⟩
  · intro v hv
    by_cases h : v = s
    · refine ⟨by simp [bfsInit, h], by rw [h]; exact hs, ?_⟩
      have hd : (bfsInit s).dist v = 0 := by simp [bfsInit, h]
      rw [hd]
      exact hone
    · simp [bfsInit, h] at hv
  · intro v hv hvs
    exfalso
    by_cases h : v = s
    · exact hvs h
    · simp [bfsInit, h] at hv
  · intro q hq
    have hqs : q = s := by simpa [bfsInit] using hq
    rw [hqs]; simp [bfsInit]

theorem Graph_BFS_SP_inv (g : Graph) (isBoeg : Bool) (s : Nat) (hWF : g.WF)
    (hs : s < g.nVert) :
    BfsInv g s (bfsLoop g isBoeg g.nVert (bfsInit s)) :=
  bfsLoop_inv g s isBoeg hWF g.nVert (bfsInit s) (bfsInit_inv g s hs)

theorem mkGraph_WF (l : List (List (Nat × Bool)))
    (h : ∀ row ∈ l, ∀ e ∈ row, e.1 < l.length) : (mkGraph l).WF := by
  intro u e he
  simp only [mkGraph] at he ⊢
  by_cases hu : u < l.length
  · have hrow : l.getD u [] ∈ l := by
      rw [List.getD_eq_getElem l [] hu]
      exact List.getElem_mem hu
    exact h _ hrow e he
  · rw [List.getD_eq_default l [] (Nat.le_of_not_lt hu)] at he
    cases he

theorem bfs_dist_nonneg_of_visited (g : Graph) (s : Nat) (st : BfsState)
    (hinv : BfsInv g s st) (v : Nat) (hv : st.visited v = true) : 0 ≤ st.dist v :=
  (hinv.vis_dist v hv).1

theorem bfs_visited_of_dist_ne (g : Graph) (s : Nat) (st : BfsState)
    (hinv : BfsInv g s st) (v : Nat) (hv : st.dist v ≠ -1) : st.visited v = true := by
  cases h : st.visited v
  · exact absurd (hinv.unvis v h).1 hv
  · rfl

theorem bfs_dist_zero_eq_source (g : Graph) (s : Nat) (st : BfsState)
    (hinv : BfsInv g s st) (v : Nat) (hv : st.dist v = 0) : v = s := by
  by_contra hne
  have hvis : st.visited v = true := by
    apply bfs_visited_of_dist_ne g s st hinv
    rw [hv]; decide
  obtain ⟨u, _, hu2, hu3⟩ := hinv.vis_par v hvis hne
  have hu0 : 0 ≤ st.dist u := (hinv.vis_dist u hu2).1
  omega

theorem bfsScan_player (cur : Nat) (st : BfsState) (edges : List (Nat × Bool)) :
    bfsScan false cur st edges = bfsScan true cur st (edges.filter (fun e => !e.2)) := by
  induction edges generalizing st with
  | nil => rfl
  | cons e rest ih =>
    obtain ⟨nb, flag⟩ := e
    cases flag
    · have hf : ((nb, false) :: rest).filter (fun e => !e.2) =
        (nb, false) :: rest.filter (fun e => !e.2) := rfl
      rw [hf]
      by_cases hnb : st.visited nb = true
      · have h1 : bfsScan false cur st ((nb, false) :: rest) =
            bfsScan false cur st rest := by
          simp [bfsScan, hnb]
        have h2 : bfsScan true cur st ((nb, false) :: rest.filter (fun e => !e.2)) =
            bfsScan true cur st (rest.filter (fun e => !e.2)) := by
          simp [bfsScan, hnb]
        rw [h1, h2]; exact ih st
      · have h1 : bfsScan false cur st ((nb, false) :: rest) =
            bfsScan false cur
              { visited := fupd st.visited nb true
                dist := fupd st.dist nb (st.dist cur + 1)
                par := fupd st.par nb (cur : Int)
                queue := st.queue ++ [nb] } rest := by
          simp [bfsScan, hnb]
        have h2 : bfsScan true cur st ((nb, false) :: rest.filter (fun e => !e.2)) =
            bfsScan true cur
              { visited := fupd st.visited nb true
                dist := fupd st.dist nb (st.dist cur + 1)
                par := fupd st.par nb (cur : Int)
                queue := st.queue ++ [nb] } (rest.filter (fun e => !e.2)) := by
          simp [bfsScan, hnb]
        rw [h1, h2]; exact ih _
    · have hf : ((nb, true) :: rest).filter (fun e => !e.2) =
        rest.filter (fun e => !e.2) := rfl
      rw [hf]
      have h1 : bfsScan false cur st ((nb, true) :: rest) =
          bfsScan false cur st rest := by
        simp [bfsScan]
      rw [h1]; exact ih st

theorem bfsLoop_player (g : Graph) (fuel : Nat) (st : BfsState) :
    bfsLoop g false fuel st = bfsLoop g.playerView true fuel st := by
  induction fuel generalizing st with
  | zero => rfl
  | succ fuel ih =>
    simp only [bfsLoop]
    cases hq : st.queue with
    | nil => rfl
    | cons cur rest =>
      show bfsLoop g false fuel
          (bfsScan false cur { st with queue := rest } (g.adj cur)) =
        bfsLoop g.playerView true fuel
          (bfsScan true cur { st with queue := rest } (g.playerView.adj cur))
      rw [ih, bfsScan_player]
      rfl

theorem Graph_BFS_SP_player (g : Graph) (s : Nat) :
    Graph_BFS_SP g false s = Graph_BFS_SP g.playerView true s := by
  simp only [Graph_BFS_SP]
  rw [show g.playerView.nVert = g.nVert from rfl, bfsLoop_player]

/-- C3: single-source BFS gives the source distance 0; every vertex left at the
`-1` distance sentinel also keeps the `-1` parent sentinel; every reached
(non-`-1`) vertex other than the source has a reached parent exactly one step
closer; and a non-mark-holder query computes exactly the BFS of the graph with
all mark-only edges removed. -/
theorem C3_bfs_shortest_paths (g : Graph) (isBoeg : Bool) (s : Nat)
    (hWF : g.WF) (hs : s < g.nVert) :
    (Graph_BFS_SP g isBoeg s).1 s = 0 ∧
    (∀ v, (Graph_BFS_SP g isBoeg s).1 v = -1 → (Graph_BFS_SP g isBoeg s).2 v = -1) ∧
    (∀ v, (Graph_BFS_SP g isBoeg s).1 v ≠ -1 → v ≠ s →
      ∃ u : Nat, (Graph_BFS_SP g isBoeg s).2 v = (u : Int) ∧
        (Graph_BFS_SP g isBoeg s).1 v = (Graph_BFS_SP g isBoeg s).1 u + 1 ∧
        (Graph_BFS_SP g isBoeg s).1 u ≠ -1) ∧
    Graph_BFS_SP g false s = Graph_BFS_SP g.playerView true s := by
  have hinv := Graph_BFS_SP_inv g isBoeg s hWF hs
  set st := bfsLoop g isBoeg g.nVert (bfsInit s) with hst
  have h1 : (Graph_BFS_SP g isBoeg s).1 = st.dist := rfl
  have h2 : (Graph_BFS_SP g isBoeg s).2 = st.par := rfl
  rw [h1, h2]
  refine ⟨hinv.dist_src, ?_, ?_, Graph_BFS_SP_player g s⟩
  · intro v hv
    cases h : st.visited v
    · exact (hinv.unvis v h).2
    · have := (hinv.vis_dist v h).1
      omega
  · intro v hv hvs
    have hvis : st.visited v = true := bfs_visited_of_dist_ne g s st hinv v hv
    obtain ⟨u, hu1, hu2, hu3⟩ := hinv.vis_par v hvis hvs
    refine ⟨u, hu1, hu3, ?_⟩
    have := (hinv.vis_dist u hu2).1
    omega

/-- Witness for C3 on the concrete example board. -/
theorem C3_bfs_shortest_paths_witness :
    (0 < gEx.nVert ∧ gEx.WF) ∧ (Graph_BFS_SP gEx false 0).1 0 = 0 :=
  ⟨⟨by decide, mkGraph_WF _ (by decide)⟩,
   (C3_bfs_shortest_paths gEx false 0 (mkGraph_WF _ (by decide)) (by decide)).1⟩

theorem flat_div (n s t : Nat) (hn : 0 < n) (ht : t < n) : (s * n + t) / n = s := by
  rw [Nat.add_comm, Nat.add_mul_div_right _ _ hn, Nat.div_eq_of_lt ht, Nat.zero_add]

theorem flat_mod (n s t : Nat) (ht : t < n) : (s * n + t) % n = t := by
  rw [Nat.add_comm, Nat.add_mul_mod_self_right, Nat.mod_eq_of_lt ht]

theorem APSP_dist_entry (g : Graph) (isBoeg : Bool) (s t : Nat) (hs : s < g.nVert)
    (ht : t < g.nVert) :
    (Graph_BFS_APSP g isBoeg).1 (s * g.nVert + t) = (Graph_BFS_SP g isBoeg s).1 t := by
  have hn : 0 < g.nVert := Nat.lt_of_le_of_lt (Nat.zero_le s) hs
  show (Graph_BFS_SP g isBoeg ((s * g.nVert + t) / g.nVert)).1 ((s * g.nVert + t) % g.nVert) =
    (Graph_BFS_SP g isBoeg s).1 t
  rw [flat_div g.nVert s t hn ht, flat_mod g.nVert s t ht]

theorem APSP_par_entry (g : Graph) (isBoeg : Bool) (s t : Nat) (hs : s < g.nVert)
    (ht : t < g.nVert) :
    (Graph_BFS_APSP g isBoeg).2 (s * g.nVert + t) = (Graph_BFS_SP g isBoeg s).2 t := by
  have hn : 0 < g.nVert := Nat.lt_of_le_of_lt (Nat.zero_le s) hs
  show (Graph_BFS_SP g isBoeg ((s * g.nVert + t) / g.nVert)).2 ((s * g.nVert + t) % g.nVert) =
    (Graph_BFS_SP g isBoeg s).2 t
  rw [flat_div g.nVert s t hn ht, flat_mod g.nVert s t ht]

theorem APSP_dist_zero (g : Graph) (isBoeg : Bool) (hWF : g.WF) (s t : Nat)
    (hs : s < g.nVert) (ht : t < g.nVert)
    (h0 : (Graph_BFS_APSP g isBoeg).1 (s * g.nVert + t) = 0) : t = s := by
  rw [APSP_dist_entry g isBoeg s t hs ht] at h0
  exact bfs_dist_zero_eq_source g s _ (Graph_BFS_SP_inv g isBoeg s hWF hs) t h0

theorem opponent_at_target_false_spec (gs : GameState) (target pid : Nat)
    (h : opponent_at_target gs target pid = false) :
    ∀ i, i < gs.nPlayers → i ≠ pid → AP_ISSET gs.active_players i = true →
      gs.player_pos.getD i 0 ≠ target := by
  intro i hi hne hact heq
  have hall := List.any_eq_false.1 h
  have hthis := hall i (List.mem_range.2 hi)
  simp only [List.getD_eq_getElem?_getD] at heq
  simp [hne, hact] at hthis
  exact hthis heq

/-- C9: in the avoidant mark-holder candidate loop, a candidate `j` that passed
the occupancy check has no active opponent standing on it, and BFS distances
are zero only from a vertex to itself; hence each active opponent's
player-graph distance to `j` is nonzero and the `avoidance / denom` division
never divides by zero (the `assert(opp_dist != 0)` cannot fire). -/
theorem C9_avoidant_no_zero_division (gp gb : Graph) (gs : GameState)
    (pid j i : Nat) (hWF : gp.WF)
    (hj : j < gp.nVert)
    (hocc : opponent_at_target gs j pid = false)
    (hi : i < gs.nPlayers) (hine : i ≠ pid)
    (hact : AP_ISSET gs.active_players i = true)
    (hpos : gs.player_pos.getD i 0 < gp.nVert) :
    (BoardInfo_make gp gb).dist_player
      (gs.player_pos.getD i 0 * (BoardInfo_make gp gb).nPositions + j) ≠ 0 ∧
    avoidDenom (BoardInfo_make gp gb) gs i j ≠ 0 := by
  have hnp : (BoardInfo_make gp gb).nPositions = gp.nVert := rfl
  have hdp : (BoardInfo_make gp gb).dist_player = (Graph_BFS_APSP gp false).1 := rfl
  have hne0 : (BoardInfo_make gp gb).dist_player
      (gs.player_pos.getD i 0 * (BoardInfo_make gp gb).nPositions + j) ≠ 0 := by
    rw [hnp, hdp]
    intro h0
    have := APSP_dist_zero gp false hWF (gs.player_pos.getD i 0) j hpos hj h0
    exact opponent_at_target_false_spec gs j pid hocc i hi hine hact this.symm
  refine ⟨hne0, ?_⟩
  rw [hnp, hdp] at hne0
  have hden : avoidDenom (BoardInfo_make gp gb) gs i j =
      (if (Graph_BFS_APSP gp false).1 (gs.player_pos.getD i 0 * gp.nVert + j) > (DIE_SIZE : Int)
       then 2 * (((Graph_BFS_APSP gp false).1 (gs.player_pos.getD i 0 * gp.nVert + j) : Int) : ℚ)
       else (((Graph_BFS_APSP gp false).1 (gs.player_pos.getD i 0 * gp.nVert + j) : Int) : ℚ)) := rfl
  rw [hden]
  have hcast : (((Graph_BFS_APSP gp false).1 (gs.player_pos.getD i 0 * gp.nVert + j) : Int) : ℚ) ≠ 0 := by
    simp only [ne_eq, Rat.intCast_eq_zero]
    exact hne0
  split
  · intro h
    rw [mul_eq_zero] at h
    rcases h with h | h
    · norm_num at h
    · exact hcast h
  · exact hcast

/-- Witness for C9 on the concrete board: opponent 1 stands at vertex 1,
candidate 2 is unoccupied, so the opponent-to-candidate distance entry is
nonzero. -/
theorem C9_avoidant_no_zero_division_witness :
    (opponent_at_target gsEx 2 0 = false ∧ AP_ISSET gsEx.active_players 1 = true) ∧
    binfoEx.dist_player (gsEx.player_pos.getD 1 0 * binfoEx.nPositions + 2) ≠ 0 :=
  ⟨⟨by decide, by decide⟩,
   (C9_avoidant_no_zero_division gExP gExB gsEx 0 2 1 (mkGraph_WF _ (by decide))
     (by decide) (by decide) (by decide) (by decide) (by decide) (by decide)).1⟩

/-- C10 (implicit): when the player-graph distance entry from the player to the
mark is the `-1` unreachable sentinel, the signed comparison
`dice_roll >= dist` still succeeds for every roll, so both AI strategies move
the player onto the mark's vertex, hand them the mark, and immediately take the
mark-holder move. -/
theorem C10_unreachable_mark_still_captured (binfo : BoardInfo) (gs : GameState)
    (pid : Nat) (r : Nat) (rest : List Nat) (av : ℚ)
    (hne : pid ≠ gs.boeg_id)
    (hdist : binfo.dist_player
      (gs.player_pos.getD pid 0 * binfo.nPositions + gs.boeg_pos) = -1) :
    GameState_move_greedy binfo gs pid (r :: rest) =
      GameState_move_greedy binfo
        { gs with player_pos := gs.player_pos.set pid gs.boeg_pos, boeg_id := pid }
        pid rest ∧
    GameState_move_avoidant binfo gs pid av (r :: rest) =
      GameState_move_avoidant binfo
        { gs with player_pos := gs.player_pos.set pid gs.boeg_pos, boeg_id := pid }
        pid av rest := by
  have hroll : ((r % (RAND_MAX_C + 1) % DIE_SIZE + 1 : Nat) : Int) ≥
      binfo.dist_player (gs.player_pos.getD pid 0 * binfo.nPositions + gs.boeg_pos) := by
    rw [hdist]
    have : (0 : Int) ≤ ((r % (RAND_MAX_C + 1) % DIE_SIZE + 1 : Nat) : Int) :=
      Int.natCast_nonneg _
    omega
  constructor
  · show (if pid = gs.boeg_id then _ else _) = _
    rw [if_neg hne, if_pos hroll]
  · show (if pid = gs.boeg_id then _ else _) = _
    rw [if_neg hne, if_pos hroll]

/-- Witness for C10: on the board whose player graph isolates vertices 2-4, the
mark at vertex 4 is player-unreachable from vertex 0 (distance entry `-1`), yet
the greedy move puts player 0 on the mark. -/
theorem C10_unreachable_mark_still_captured_witness :
    (0 ≠ gsEx.boeg_id ∧
      binfoExQ.dist_player (gsEx.player_pos.getD 0 0 * binfoExQ.nPositions + gsEx.boeg_pos) = -1) ∧
    GameState_move_greedy binfoExQ gsEx 0 [0] =
      GameState_move_greedy binfoExQ
        { gsEx with player_pos := gsEx.player_pos.set 0 gsEx.boeg_pos, boeg_id := 0 }
        0 [] :=
  ⟨⟨by decide, by decide⟩,
   (C10_unreachable_mark_still_captured binfoExQ gsEx 0 0 [] 40 (by decide) (by decide)).1⟩

/-! ## Predecessor-tree walks (claims C1, C10) -/

theorem getD_append_lt (l l' : List Nat) (i : Nat) (h : i < l.length) :
    (l ++ l').getD i 0 = l.getD i 0 := by
  simp only [List.getD_eq_getElem?_getD]
  rw [List.getElem?_append, if_pos h]

theorem getD_append_length (l : List Nat) (t : Nat) :
    (l ++ [t]).getD l.length 0 = t := by
  simp only [List.getD_eq_getElem?_getD]
  rw [List.getElem?_concat_length]
  rfl

theorem parchain_length_pos (p : Nat → Int) (off : Nat) (c : List Nat) (v : Nat)
    (h : ParChain p off c v) : 1 ≤ c.length := by
  induction h with
  | root t _ => simp
  | cons c u t _ _ _ => simp

theorem bfs_parchain (g : Graph) (s : Nat) (st : BfsState) (hinv : BfsInv g s st) :
    ∀ k v, st.visited v = true → (st.dist v).toNat = k →
      ∃ c : List Nat, ParChain st.par 0 c v ∧ c.length = k + 1 ∧
        ∀ x ∈ c, st.visited x = true := by
  intro k
  induction k with
  | zero =>
    intro v hv hk
    have hv0 : st.dist v = 0 := by
      have := (hinv.vis_dist v hv).1
      omega
    have hvs : v = s := bfs_dist_zero_eq_source g s st hinv v hv0
    refine ⟨[v], ?_, by simp, ?_⟩
    · apply ParChain.root
      rw [Nat.zero_add, hvs]
      exact hinv.par_src
    · intro x hx
      have : x = v := by simpa using hx
      rw [this]; exact hv
  | succ k ih =>
    intro v hv hk
    have hvs : v ≠ s := by
      intro h
      rw [h, hinv.dist_src] at hk
      simp at hk
    obtain ⟨u, hu1, hu2, hu3⟩ := hinv.vis_par v hv hvs
    have hu0 : 0 ≤ st.dist u := (hinv.vis_dist u hu2).1
    have hku : (st.dist u).toNat = k := by omega
    obtain ⟨c, hc1, hc2, hc3⟩ := ih u hu2 hku
    refine ⟨c ++ [v], ?_, by simp [hc2], ?_⟩
    · apply ParChain.cons c u v hc1
      rw [Nat.zero_add]
      exact hu1
    · intro x hx
      rcases List.mem_append.1 hx with hx | hx
      · exact hc3 x hx
      · have : x = v := by simpa using hx
        rw [this]; exact hv

theorem parchain_shift (p q : Nat → Int) (off n : Nat) (c : List Nat) (v : Nat)
    (h : ParChain p 0 c v) (hlt : ∀ x ∈ c, x < n)
    (hq : ∀ x, x < n → q (off + x) = p x) : ParChain q off c v := by
  induction h with
  | root t ht =>
    apply ParChain.root
    rw [hq t (hlt t (by simp))]
    rw [Nat.zero_add] at ht
    exact ht
  | cons c u t hc hpt ih =>
    apply ParChain.cons c u t
    · exact ih (fun x hx => hlt x (List.mem_append.2 (Or.inl hx)))
    · rw [hq t (hlt t (List.mem_append.2 (Or.inr (by simp))))]
      rw [Nat.zero_add] at hpt
      exact hpt

theorem chainToRoot_eq_of_parchain (q : Nat → Int) (off : Nat) (c : List Nat)
    (v : Nat) (h : ParChain q off c v) :
    ∀ fuel, c.length ≤ fuel → chainToRoot q off v fuel = c := by
  induction h with
  | root t ht =>
    intro fuel hfuel
    match fuel, hfuel with
    | f + 1, _ =>
      show (if q (off + t) = -1 then [t] else _) = [t]
      rw [if_pos ht]
  | cons c u t hc hpt ih =>
    intro fuel hfuel
    rw [List.length_append, List.length_singleton] at hfuel
    match fuel, hfuel with
    | f + 1, hfuel =>
      have hne : q (off + t) ≠ -1 := by rw [hpt]; omega
      show (if q (off + t) = -1 then [t] else chainToRoot q off (q (off + t)).toNat f ++ [t]) = c ++ [t]
      rw [if_neg hne, hpt, Int.toNat_natCast, ih f (by omega)]

theorem followAux_parchain (q : Nat → Int) (off d : Nat) (hd : 1 ≤ d)
    (c : List Nat) (v : Nat) (h : ParChain q off c v) :
    ∀ fuel, c.length ≤ fuel →
      followAux q off v d fuel =
        (c.length, if d < c.length then some (c.getD d 0) else none) := by
  induction h with
  | root t ht =>
    intro fuel hfuel
    match fuel, hfuel with
    | f + 1, _ =>
      show (if q (off + t) = -1 then ((1 : Nat), (none : Option Nat)) else _) = _
      rw [if_pos ht]
      have : ¬(d < ([t] : List Nat).length) := by simp; omega
      rw [if_neg this]
      simp
  | cons c u t hc hpt ih =>
    intro fuel hfuel
    rw [List.length_append, List.length_singleton] at hfuel
    match fuel, hfuel with
    | f + 1, hfuel =>
      have hne : q (off + t) ≠ -1 := by rw [hpt]; omega
      have hr := ih f (by omega)
      show (if q (off + t) = -1 then ((1 : Nat), (none : Option Nat))
        else
          ((followAux q off (q (off + t)).toNat d f).1 + 1,
            if (followAux q off (q (off + t)).toNat d f).1 + 1 - 1 = d
            then some t else (followAux q off (q (off + t)).toNat d f).2)) = _
      rw [if_neg hne, hpt, Int.toNat_natCast, hr]
      simp only [List.length_append, List.length_singleton]
      by_cases hdc : c.length + 1 - 1 = d
      · have hdc' : d = c.length := by omega
        rw [if_pos hdc]
        have h1 : d < c.length + 1 := by omega
        rw [if_pos h1, hdc', getD_append_length]
      · rw [if_neg hdc]
        by_cases h2 : d < c.length
        · rw [if_pos h2, if_pos (by omega), getD_append_lt c [t] d h2]
        · rw [if_neg h2, if_neg (by omega)]

/-- The `follow_path` result on BFS-produced parents: the vertex `d` steps from
the source along the predecessor-tree walk to `tgt`. -/
theorem follow_path_bfs (g : Graph) (isBoeg : Bool) (src tgt : Nat)
    (hWF : g.WF) (hsrc : src < g.nVert) (htgt : tgt < g.nVert)
    (d : Nat) (hd : 1 ≤ d)
    (hdlt : (d : Int) < (Graph_BFS_SP g isBoeg src).1 tgt) :
    follow_path (Graph_BFS_APSP g isBoeg).2 src tgt g.nVert d =
      (chainToRoot (Graph_BFS_APSP g isBoeg).2 (src * g.nVert) tgt g.nVert).getD d 0 := by
  have hinv := Graph_BFS_SP_inv g isBoeg src hWF hsrc
  set st := bfsLoop g isBoeg g.nVert (bfsInit src) with hst
  have hdist : (Graph_BFS_SP g isBoeg src).1 tgt = st.dist tgt := rfl
  have hpar : (Graph_BFS_SP g isBoeg src).2 = st.par := rfl
  rw [hdist] at hdlt
  have hvis : st.visited tgt = true := by
    apply bfs_visited_of_dist_ne g src st hinv
    omega
  obtain ⟨c, hc1, hc2, hc3⟩ := bfs_parchain g src st hinv (st.dist tgt).toNat tgt hvis rfl
  have hlt : ∀ x ∈ c, x < g.nVert := fun x hx => (hinv.vis_dist x (hc3 x hx)).2.1
  have hq : ∀ x, x < g.nVert → (Graph_BFS_APSP g isBoeg).2 (src * g.nVert + x) = st.par x := by
    intro x hx
    rw [APSP_par_entry g isBoeg src x hsrc hx, hpar]
  have hflat : ParChain (Graph_BFS_APSP g isBoeg).2 (src * g.nVert) c tgt :=
    parchain_shift st.par (Graph_BFS_APSP g isBoeg).2 (src * g.nVert) g.nVert c tgt hc1 hlt hq
  have hlen : c.length ≤ g.nVert := by
    have h1 := (hinv.vis_dist tgt hvis).2.2
    have h2 := visCount_le g.nVert st.visited
    omega
  have hdc : d < c.length := by
    have := (hinv.vis_dist tgt hvis).1
    omega
  unfold follow_path
  rw [followAux_parchain (Graph_BFS_APSP g isBoeg).2 (src * g.nVert) d hd c tgt hflat g.nVert hlen]
  rw [chainToRoot_eq_of_parchain (Graph_BFS_APSP g isBoeg).2 (src * g.nVert) c tgt hflat g.nVert hlen]
  rw [if_pos hdc]
  rfl

/-- C1: a non-mark-holding player under Greedy or Avoidant first rolls the
die.  If the player-graph shortest distance to the mark is within the roll,
the player steps onto the mark's vertex, `boeg_id` becomes their id, and the
call immediately continues with that player's mark-holder move (on the next
roll of the stream).  Otherwise the player's new position is the vertex
exactly `roll` steps along the predecessor-tree shortest-path walk toward the
mark, and the call returns `CONTINUE`. -/
theorem C1_nonholder_move (gp gb : Graph) (gs : GameState) (pid r r2 : Nat)
    (rest : List Nat) (av : ℚ) (hWF : gp.WF) (hne : pid ≠ gs.boeg_id)
    (hsrc : gs.player_pos.getD pid 0 < gp.nVert) (hb : gs.boeg_pos < gp.nVert) :
    (((r % (RAND_MAX_C + 1) % DIE_SIZE + 1 : Nat) : Int) ≥
        (BoardInfo_make gp gb).dist_player
          (gs.player_pos.getD pid 0 * (BoardInfo_make gp gb).nPositions + gs.boeg_pos) →
      GameState_move_greedy (BoardInfo_make gp gb) gs pid (r :: r2 :: rest) =
        some ((GameState_move_greedy_boeg (BoardInfo_make gp gb)
                 { gs with player_pos := gs.player_pos.set pid gs.boeg_pos, boeg_id := pid }
                 pid (r2 % (RAND_MAX_C + 1) % DIE_SIZE + 1)).1,
              (GameState_move_greedy_boeg (BoardInfo_make gp gb)
                 { gs with player_pos := gs.player_pos.set pid gs.boeg_pos, boeg_id := pid }
                 pid (r2 % (RAND_MAX_C + 1) % DIE_SIZE + 1)).2, rest)) ∧
    (((r % (RAND_MAX_C + 1) % DIE_SIZE + 1 : Nat) : Int) ≥
        (BoardInfo_make gp gb).dist_player
          (gs.player_pos.getD pid 0 * (BoardInfo_make gp gb).nPositions + gs.boeg_pos) →
      GameState_move_avoidant (BoardInfo_make gp gb) gs pid av (r :: r2 :: rest) =
        some ((GameState_move_avoidant_boeg (BoardInfo_make gp gb)
                 { gs with player_pos := gs.player_pos.set pid gs.boeg_pos, boeg_id := pid }
                 pid (r2 % (RAND_MAX_C + 1) % DIE_SIZE + 1) av).1,
              (GameState_move_avoidant_boeg (BoardInfo_make gp gb)
                 { gs with player_pos := gs.player_pos.set pid gs.boeg_pos, boeg_id := pid }
                 pid (r2 % (RAND_MAX_C + 1) % DIE_SIZE + 1) av).2, rest)) ∧
    (((r % (RAND_MAX_C + 1) % DIE_SIZE + 1 : Nat) : Int) <
        (BoardInfo_make gp gb).dist_player
          (gs.player_pos.getD pid 0 * (BoardInfo_make gp gb).nPositions + gs.boeg_pos) →
      GameState_move_greedy (BoardInfo_make gp gb) gs pid (r :: r2 :: rest) =
        some (STATUS.CONTINUE,
          { gs with player_pos := gs.player_pos.set pid ((chainToRoot (BoardInfo_make gp gb).par_player (gs.player_pos.getD pid 0 * (BoardInfo_make gp gb).nPositions) gs.boeg_pos (BoardInfo_make gp gb).nPositions).getD (r % (RAND_MAX_C + 1) % DIE_SIZE + 1) 0) },
          r2 :: rest)) ∧
    (((r % (RAND_MAX_C + 1) % DIE_SIZE + 1 : Nat) : Int) <
        (BoardInfo_make gp gb).dist_player
          (gs.player_pos.getD pid 0 * (BoardInfo_make gp gb).nPositions + gs.boeg_pos) →
      GameState_move_avoidant (BoardInfo_make gp gb) gs pid av (r :: r2 :: rest) =
        some (STATUS.CONTINUE,
          { gs with player_pos := gs.player_pos.set pid ((chainToRoot (BoardInfo_make gp gb).par_player (gs.player_pos.getD pid 0 * (BoardInfo_make gp gb).nPositions) gs.boeg_pos (BoardInfo_make gp gb).nPositions).getD (r % (RAND_MAX_C + 1) % DIE_SIZE + 1) 0) },
          r2 :: rest)) := by
  have hnp : (BoardInfo_make gp gb).nPositions = gp.nVert := rfl
  have hroll1 : 1 ≤ r % (RAND_MAX_C + 1) % DIE_SIZE + 1 := by omega
  have hfollow : ((r % (RAND_MAX_C + 1) % DIE_SIZE + 1 : Nat) : Int) <
      (BoardInfo_make gp gb).dist_player
        (gs.player_pos.getD pid 0 * (BoardInfo_make gp gb).nPositions + gs.boeg_pos) →
      follow_path (BoardInfo_make gp gb).par_player (gs.player_pos.getD pid 0)
        gs.boeg_pos (BoardInfo_make gp gb).nPositions
        (r % (RAND_MAX_C + 1) % DIE_SIZE + 1) =
      (chainToRoot (BoardInfo_make gp gb).par_player
          (gs.player_pos.getD pid 0 * (BoardInfo_make gp gb).nPositions)
          gs.boeg_pos (BoardInfo_make gp gb).nPositions).getD
        (r % (RAND_MAX_C + 1) % DIE_SIZE + 1) 0 := by
    intro hlt
    have hentry : (BoardInfo_make gp gb).dist_player
        (gs.player_pos.getD pid 0 * (BoardInfo_make gp gb).nPositions + gs.boeg_pos) =
        (Graph_BFS_SP gp false (gs.player_pos.getD pid 0)).1 gs.boeg_pos := by
      rw [hnp]
      exact APSP_dist_entry gp false (gs.player_pos.getD pid 0) gs.boeg_pos hsrc hb
    rw [hentry] at hlt
    exact follow_path_bfs gp false (gs.player_pos.getD pid 0) gs.boeg_pos hWF hsrc hb
      (r % (RAND_MAX_C + 1) % DIE_SIZE + 1) hroll1 hlt
  refine ⟨?_, ?_, ?_, ?_⟩
  · intro hcap
    simp only [GameState_move_greedy]
    rw [if_neg hne, if_pos hcap, if_pos trivial]
  · intro hcap
    simp only [GameState_move_avoidant]
    rw [if_neg hne, if_pos hcap, if_pos trivial]
  · intro hadv
    have hcap : ¬(((r % (RAND_MAX_C + 1) % DIE_SIZE + 1 : Nat) : Int) ≥
        (BoardInfo_make gp gb).dist_player
          (gs.player_pos.getD pid 0 * (BoardInfo_make gp gb).nPositions + gs.boeg_pos)) := by
      omega
    simp only [GameState_move_greedy]
    rw [if_neg hne, if_neg hcap, hfollow hadv]
  · intro hadv
    have hcap : ¬(((r % (RAND_MAX_C + 1) % DIE_SIZE + 1 : Nat) : Int) ≥
        (BoardInfo_make gp gb).dist_player
          (gs.player_pos.getD pid 0 * (BoardInfo_make gp gb).nPositions + gs.boeg_pos)) := by
      omega
    simp only [GameState_move_avoidant]
    rw [if_neg hne, if_neg hcap, hfollow hadv]

/-- Witness for C1 on the concrete board: player 0 at vertex 0, mark at
vertex 4, player-graph distance 4, roll 1, so the player advances to the
vertex one step along the shortest path (vertex 1). -/
theorem C1_nonholder_move_witness :
    (0 ≠ gsEx.boeg_id ∧
      ((0 % (RAND_MAX_C + 1) % DIE_SIZE + 1 : Nat) : Int) <
        binfoEx.dist_player (gsEx.player_pos.getD 0 0 * binfoEx.nPositions + gsEx.boeg_pos)) ∧
    GameState_move_greedy binfoEx gsEx 0 [0, 0] =
      some (STATUS.CONTINUE,
        { gsEx with player_pos := gsEx.player_pos.set 0 ((chainToRoot binfoEx.par_player (gsEx.player_pos.getD 0 0 * binfoEx.nPositions) gsEx.boeg_pos binfoEx.nPositions).getD (0 % (RAND_MAX_C + 1) % DIE_SIZE + 1) 0) },
        [0]) :=
  ⟨⟨by decide, by decide⟩,
   (C1_nonholder_move gExP gExB gsEx 0 0 0 [] 40 (mkGraph_WF _ (by decide))
     (by decide) (by decide) (by decide)).2.2.1 (by decide)⟩

/-! ## Backtracking DFS: state restoration and accumulator growth -/

theorem HashMap_insert_append (acc : List Nat) (v : Nat) :
    ∃ l, HashMap_insert acc v = acc ++ l := by
  unfold HashMap_insert
  split
  · exact ⟨[], by simp⟩
  · exact ⟨[v], rfl⟩

theorem HashMap_insert_mem_self (acc : List Nat) (v : Nat) :
    v ∈ HashMap_insert acc v := by
  unfold HashMap_insert
  split
  · assumption
  · simp

theorem dfsEdges_frame (g : Graph) (isBoeg : Bool) (fuel : Nat) (d : Int)
    (Hvisit : ∀ u visited dbuf acc, visited u = false →
      (∀ x, (dfsVisit g isBoeg fuel d u visited dbuf acc).1 x = visited x) ∧
      (∀ x, (visited x = true ∨ x = u) →
        (dfsVisit g isBoeg fuel d u visited dbuf acc).2.1 x = dbuf x) ∧
      (∃ l, (dfsVisit g isBoeg fuel d u visited dbuf acc).2.2 = acc ++ l)) :
    ∀ (u : Nat) (edges : List (Nat × Bool)) (visited : Nat → Bool)
      (dbuf : Nat → Int) (acc : List Nat),
      (∀ x, (dfsEdges g isBoeg fuel d u edges visited dbuf acc).1 x = visited x) ∧
      (∀ x, visited x = true →
        (dfsEdges g isBoeg fuel d u edges visited dbuf acc).2.1 x = dbuf x) ∧
      (∃ l, (dfsEdges g isBoeg fuel d u edges visited dbuf acc).2.2 = acc ++ l) := by
  intro u edges
  induction edges with
  | nil =>
    intro visited dbuf acc
    exact ⟨fun x => by simp [dfsEdges], fun x _ => by simp [dfsEdges],
      ⟨[], by simp [dfsEdges]⟩⟩
  | cons e rest ih =>
    intro visited dbuf acc
    obtain ⟨nb, flag⟩ := e
    show (∀ x, (dfsEdges g isBoeg fuel d u ((nb, flag) :: rest) visited dbuf acc).1 x = _) ∧ _
    simp only [dfsEdges]
    split
    · exact ih visited dbuf acc
    · split
      · exact ih visited dbuf acc
      · rename_i hskip hnb
        have hnbf : visited nb = false := by simpa using hnb
        split
        · set dbuf1 := fupd dbuf nb (dbuf u + 1) with hdbuf1
          obtain ⟨hv1, hv2, hv3⟩ := Hvisit nb visited dbuf1 acc hnbf
          set r := dfsVisit g isBoeg fuel d nb visited dbuf1 acc with hr
          obtain ⟨he1, he2, he3⟩ := ih r.1 r.2.1 r.2.2
          refine ⟨?_, ?_, ?_⟩
          · intro x
            rw [he1 x, hv1 x]
          · intro x hx
            have hxnb : x ≠ nb := by
              intro h; rw [h] at hx; rw [hx] at hnbf; cases hnbf
            rw [he2 x (by rw [hv1 x]; exact hx), hv2 x (Or.inl hx), hdbuf1,
              fupd_ne _ _ _ _ hxnb]
          · obtain ⟨l1, hl1⟩ := hv3
            obtain ⟨l2, hl2⟩ := he3
            exact ⟨l1 ++ l2, by rw [hl2, hl1, List.append_assoc]⟩
        · obtain ⟨he1, he2, he3⟩ := ih visited (fupd dbuf nb (dbuf u + 1)) acc
          refine ⟨he1, ?_, he3⟩
          intro x hx
          have hxnb : x ≠ nb := by
            intro h; rw [h] at hx; rw [hx] at hnbf; cases hnbf
          rw [he2 x hx, fupd_ne _ _ _ _ hxnb]

theorem dfsVisit_frame (g : Graph) (isBoeg : Bool) (fuel : Nat) (d : Int) :
    ∀ (u : Nat) (visited : Nat → Bool) (dbuf : Nat → Int) (acc : List Nat),
      visited u = false →
      (∀ x, (dfsVisit g isBoeg fuel d u visited dbuf acc).1 x = visited x) ∧
      (∀ x, (visited x = true ∨ x = u) →
        (dfsVisit g isBoeg fuel d u visited dbuf acc).2.1 x = dbuf x) ∧
      (∃ l, (dfsVisit g isBoeg fuel d u visited dbuf acc).2.2 = acc ++ l) := by
  induction fuel with
  | zero =>
    intro u visited dbuf acc hu
    exact ⟨fun x => by simp [dfsVisit], fun x _ => by simp [dfsVisit],
      ⟨[], by simp [dfsVisit]⟩⟩
  | succ fuel ih =>
    intro u visited dbuf acc hu
    simp only [dfsVisit]
    split
    · refine ⟨?_, fun x _ => rfl, HashMap_insert_append acc u⟩
      intro x
      by_cases hx : x = u
      · rw [hx]
        show fupd (fupd visited u true) u false u = visited u
        rw [fupd_self, hu]
      · show fupd (fupd visited u true) u false x = visited x
        rw [fupd_ne _ _ _ _ hx, fupd_ne _ _ _ _ hx]
    · obtain ⟨he1, he2, he3⟩ := dfsEdges_frame g isBoeg fuel d ih u (g.adj u)
        (fupd visited u true) dbuf acc
      refine ⟨?_, ?_, he3⟩
      · intro x
        by_cases hx : x = u
        · rw [hx]
          show fupd _ u false u = visited u
          rw [fupd_self, hu]
        · show fupd _ u false x = visited x
          rw [fupd_ne _ _ _ _ hx, he1 x, fupd_ne _ _ _ _ hx]
      · intro x hx
        apply he2
        rcases hx with hx | hx
        · by_cases hxu : x = u
          · rw [hxu]; exact fupd_self _ _ _
          · rw [fupd_ne _ _ _ _ hxu]; exact hx
        · rw [hx]; exact fupd_self _ _ _

theorem dfsVisit_acc_mono (g : Graph) (isBoeg : Bool) (fuel : Nat) (d : Int)
    (u : Nat) (visited : Nat → Bool) (dbuf : Nat → Int) (acc : List Nat)
    (hu : visited u = false) (v : Nat) (hv : v ∈ acc) :
    v ∈ (dfsVisit g isBoeg fuel d u visited dbuf acc).2.2 := by
  obtain ⟨l, hl⟩ := (dfsVisit_frame g isBoeg fuel d u visited dbuf acc hu).2.2
  rw [hl]
  exact List.mem_append.2 (Or.inl hv)

theorem dfsEdges_acc_mono (g : Graph) (isBoeg : Bool) (fuel : Nat) (d : Int)
    (u : Nat) (edges : List (Nat × Bool)) (visited : Nat → Bool)
    (dbuf : Nat → Int) (acc : List Nat) (v : Nat) (hv : v ∈ acc) :
    v ∈ (dfsEdges g isBoeg fuel d u edges visited dbuf acc).2.2 := by
  obtain ⟨l, hl⟩ := (dfsEdges_frame g isBoeg fuel d
    (dfsVisit_frame g isBoeg fuel d) u edges visited dbuf acc).2.2
  rw [hl]
  exact List.mem_append.2 (Or.inl hv)

/-! ## Backtracking DFS: fuel indifference (depth bound, claim C8) -/

theorem dfsEdges_fuel_mono (g : Graph) (isBoeg : Bool) (d : Int) (b1 b2 : Nat)
    (Hvisit : ∀ u visited dbuf acc, visited u = false → dbuf u ≤ d →
      (d - dbuf u).toNat < b1 → (d - dbuf u).toNat < b2 →
      dfsVisit g isBoeg b1 d u visited dbuf acc =
        dfsVisit g isBoeg b2 d u visited dbuf acc) :
    ∀ (u : Nat) (edges : List (Nat × Bool)) (visited : Nat → Bool)
      (dbuf : Nat → Int) (acc : List Nat),
      visited u = true → dbuf u ≤ d →
      (d - dbuf u).toNat ≤ b1 → (d - dbuf u).toNat ≤ b2 →
      dfsEdges g isBoeg b1 d u edges visited dbuf acc =
        dfsEdges g isBoeg b2 d u edges visited dbuf acc := by
  intro u edges
  induction edges with
  | nil =>
    intro visited dbuf acc _ _ _ _
    simp [dfsEdges]
  | cons e rest ih =>
    intro visited dbuf acc hu hdb h1 h2
    obtain ⟨nb, flag⟩ := e
    simp only [dfsEdges]
    split
    · exact ih visited dbuf acc hu hdb h1 h2
    · split
      · exact ih visited dbuf acc hu hdb h1 h2
      · rename_i hskip hnb
        have hnbf : visited nb = false := by simpa using hnb
        have hnbu : nb ≠ u := by
          intro h; rw [h] at hnbf; rw [hu] at hnbf; cases hnbf
        split
        · rename_i hguard
          have hg : dbuf u + 1 ≤ d := by
            have : fupd dbuf nb (dbuf u + 1) nb = dbuf u + 1 := fupd_self _ _ _
            rw [this] at hguard
            exact hguard
          have hchild : dfsVisit g isBoeg b1 d nb visited (fupd dbuf nb (dbuf u + 1)) acc =
              dfsVisit g isBoeg b2 d nb visited (fupd dbuf nb (dbuf u + 1)) acc := by
            apply Hvisit nb visited _ acc hnbf
            · rw [fupd_self]; exact hg
            · rw [fupd_self]; omega
            · rw [fupd_self]; omega
          rw [hchild]
          set r := dfsVisit g isBoeg b2 d nb visited (fupd dbuf nb (dbuf u + 1)) acc with hrdef
          obtain ⟨hf1, hf2, _⟩ :=
            dfsVisit_frame g isBoeg b2 d nb visited (fupd dbuf nb (dbuf u + 1)) acc hnbf
          have hu' : r.1 u = true := by rw [hf1 u]; exact hu
          have hdb' : r.2.1 u = dbuf u := by
            rw [hf2 u (Or.inl hu), fupd_ne _ _ _ _ (Ne.symm hnbu)]
          apply ih r.1 r.2.1 r.2.2 hu'
          · rw [hdb']; exact hdb
          · rw [hdb']; exact h1
          · rw [hdb']; exact h2
        · apply ih visited (fupd dbuf nb (dbuf u + 1)) acc hu
          · rw [fupd_ne _ _ _ _ (Ne.symm hnbu)]; exact hdb
          · rw [fupd_ne _ _ _ _ (Ne.symm hnbu)]; exact h1
          · rw [fupd_ne _ _ _ _ (Ne.symm hnbu)]; exact h2

theorem dfsVisit_fuel_mono (g : Graph) (isBoeg : Bool) (d : Int) :
    ∀ (b1 b2 : Nat) (u : Nat) (visited : Nat → Bool) (dbuf : Nat → Int)
      (acc : List Nat), visited u = false → dbuf u ≤ d →
      (d - dbuf u).toNat < b1 → (d - dbuf u).toNat < b2 →
      dfsVisit g isBoeg b1 d u visited dbuf acc =
        dfsVisit g isBoeg b2 d u visited dbuf acc := by
  intro b1
  induction b1 with
  | zero =>
    intro b2 u visited dbuf acc _ _ h1 _
    omega
  | succ b1 ih =>
    intro b2 u visited dbuf acc hu hdb h1 h2
    match b2, h2 with
    | b2 + 1, h2 =>
      simp only [dfsVisit]
      split
      · rfl
      · rename_i hne
        have hedges : dfsEdges g isBoeg b1 d u (g.adj u) (fupd visited u true) dbuf acc =
            dfsEdges g isBoeg b2 d u (g.adj u) (fupd visited u true) dbuf acc := by
          apply dfsEdges_fuel_mono g isBoeg d b1 b2
            (fun u' v' d' a' h1' h2' h3' h4' => ih b2 u' v' d' a' h1' h2' h3' h4')
            u (g.adj u) (fupd visited u true) dbuf acc (fupd_self _ _ _) hdb
            (by omega) (by omega)
        rw [hedges]

/-- C8: the backtracking reachability search explores only simple paths (the
visited flags forbid revisiting, so its recursion depth is at most the number
of vertices on one walk) and a branch stops as soon as its running distance
reaches `distance`; consequently recursion depth `distance + 1` already
computes the final state, and any larger depth allowance — in particular one
as large as the vertex count — returns the identical result.  Termination is
thus bounded by `distance`, not by `nVert`. -/
theorem C8_dfs_depth_bounded (g : Graph) (isBoeg : Bool) (src : Nat) (d : Int)
    (hd : 0 ≤ d) (fuel : Nat) (hfuel : d.toNat + 1 ≤ fuel) :
    dfsVisit g isBoeg fuel d src (fun _ => false)
        (fun v => if v = src then 0 else -1) [] =
      dfsVisit g isBoeg (d.toNat + 1) d src (fun _ => false)
        (fun v => if v = src then 0 else -1) [] ∧
    (dfsVisit g isBoeg fuel d src (fun _ => false)
        (fun v => if v = src then 0 else -1) []).2.2 =
      Graph_reachable_pos g isBoeg src d := by
  have hsrc0 : (fun v => if v = src then (0 : Int) else -1) src = 0 := by simp
  have hmain : dfsVisit g isBoeg fuel d src (fun _ => false)
      (fun v => if v = src then 0 else -1) [] =
      dfsVisit g isBoeg (d.toNat + 1) d src (fun _ => false)
        (fun v => if v = src then 0 else -1) [] := by
    have h0 : (if src = src then (0 : Int) else -1) = 0 := by simp
    apply dfsVisit_fuel_mono g isBoeg d fuel (d.toNat + 1) src _ _ _ rfl
    · show (if src = src then (0 : Int) else -1) ≤ d
      rw [h0]; exact hd
    · show (d - if src = src then (0 : Int) else -1).toNat < fuel
      rw [h0, Int.sub_zero]; omega
    · show (d - if src = src then (0 : Int) else -1).toNat < d.toNat + 1
      rw [h0, Int.sub_zero]; omega
  exact ⟨hmain, by rw [hmain]; rfl⟩

/-- Witness for C8: on the example board, depth allowance 10 and the tight
depth `3 + 1` agree for distance 3 from vertex 0. -/
theorem C8_dfs_depth_bounded_witness :
    ((0 : Int) ≤ 3 ∧ (3 : Int).toNat + 1 ≤ 10) ∧
    (dfsVisit gEx true 10 3 0 (fun _ => false)
        (fun v => if v = 0 then 0 else -1) []).2.2 =
      Graph_reachable_pos gEx true 0 3 :=
  ⟨⟨by decide, by decide⟩,
   (C8_dfs_depth_bounded gEx true 0 3 (by decide) 10 (by decide)).2⟩

/-! ## Backtracking DFS: soundness (collected vertices have simple paths) -/

theorem HashMap_insert_mem (acc : List Nat) (u v : Nat)
    (h : v ∈ HashMap_insert acc u) : v ∈ acc ∨ v = u := by
  unfold HashMap_insert at h
  split at h
  · exact Or.inl h
  · rcases List.mem_append.1 h with h | h
    · exact Or.inl h
    · exact Or.inr (by simpa using h)

theorem mem_of_mem_concat {p : List Nat} {u x : Nat} (hlast : p.getLast? = some u)
    (hx : x ∈ p) : x ∈ p.dropLast ∨ x = u := by
  have hne : p ≠ [] := by
    intro h; rw [h] at hlast; cases hlast
  have hp : p.dropLast ++ [p.getLast hne] = p := List.dropLast_append_getLast hne
  have hu : p.getLast hne = u := by
    have := List.getLast?_eq_getLast p hne
    rw [this] at hlast
    exact Option.some_injective _ hlast
  rw [← hp] at hx
  rcases List.mem_append.1 hx with hx | hx
  · exact Or.inl hx
  · right
    rw [← hu]
    simpa using hx

theorem dfsEdges_sound (g : Graph) (isBoeg : Bool) (d : Int) (fuel : Nat)
    (Hvisit : ∀ u visited dbuf acc src p, visited u = false →
      p.head? = some src → p.getLast? = some u → p.Nodup →
      List.Chain' (adjacentB g isBoeg) p →
      (∀ x ∈ p.dropLast, visited x = true) →
      dbuf u = (p.length : Int) - 1 →
      ∀ v ∈ (dfsVisit g isBoeg fuel d u visited dbuf acc).2.2,
        v ∈ acc ∨ ∃ q, IsSimplePath g isBoeg q src v ∧ (q.length : Int) = d + 1) :
    ∀ (u : Nat) (edges : List (Nat × Bool)) (visited : Nat → Bool)
      (dbuf : Nat → Int) (acc : List Nat) (src : Nat) (p : List Nat),
      (∀ e ∈ edges, e ∈ g.adj u) →
      p.head? = some src → p.getLast? = some u → p.Nodup →
      List.Chain' (adjacentB g isBoeg) p →
      (∀ x ∈ p, visited x = true) →
      dbuf u = (p.length : Int) - 1 →
      ∀ v ∈ (dfsEdges g isBoeg fuel d u edges visited dbuf acc).2.2,
        v ∈ acc ∨ ∃ q, IsSimplePath g isBoeg q src v ∧ (q.length : Int) = d + 1 := by
  intro u edges
  induction edges with
  | nil =>
    intro visited dbuf acc src p _ _ _ _ _ _ _ v hv
    simp only [dfsEdges] at hv
    exact Or.inl hv
  | cons e rest ih =>
    intro visited dbuf acc src p hsub hhead hlast hnodup hchain hvisp hdb v hv
    obtain ⟨nb, flag⟩ := e
    have hsubr : ∀ e ∈ rest, e ∈ g.adj u := fun e he => hsub e (List.mem_cons_of_mem _ he)
    simp only [dfsEdges] at hv
    split at hv
    · exact ih visited dbuf acc src p hsubr hhead hlast hnodup hchain hvisp hdb v hv
    · split at hv
      · exact ih visited dbuf acc src p hsubr hhead hlast hnodup hchain hvisp hdb v hv
      · rename_i hskip hnb
        have hnbf : visited nb = false := by simpa using hnb
        have hnbu : nb ≠ u := by
          intro h
          rw [h] at hnbf
          rw [hvisp u (by
            have hne : p ≠ [] := by intro hh; rw [hh] at hlast; cases hlast
            have hp : p.dropLast ++ [p.getLast hne] = p := List.dropLast_append_getLast hne
            have hu : p.getLast hne = u := by
              have := List.getLast?_eq_getLast p hne
              rw [this] at hlast
              exact Option.some_injective _ hlast
            rw [← hp, hu]
            simp)] at hnbf
          cases hnbf
        split at hv
        · rename_i hguard
          set dbuf1 := fupd dbuf nb (dbuf u + 1) with hdbuf1
          set r := dfsVisit g isBoeg fuel d nb visited dbuf1 acc with hrdef
          obtain ⟨hf1, hf2, _⟩ := dfsVisit_frame g isBoeg fuel d nb visited dbuf1 acc hnbf
          have hstep := ih r.1 r.2.1 r.2.2 src p hsubr hhead hlast hnodup hchain
            (fun x hx => by rw [hf1 x]; exact hvisp x hx)
            (by
              rw [hf2 u (Or.inl (hvisp u (by
                have hne : p ≠ [] := by intro hh; rw [hh] at hlast; cases hlast
                have hp : p.dropLast ++ [p.getLast hne] = p := List.dropLast_append_getLast hne
                have hu : p.getLast hne = u := by
                  have := List.getLast?_eq_getLast p hne
                  rw [this] at hlast
                  exact Option.some_injective _ hlast
                rw [← hp, hu]
                simp)))]
              rw [hdbuf1, fupd_ne _ _ _ _ (Ne.symm hnbu)]
              exact hdb)
            v hv
          rcases hstep with hstep | hstep
          · -- v came from the child call
            have hne : p ≠ [] := by intro hh; rw [hh] at hlast; cases hlast
            have hp : p.dropLast ++ [p.getLast hne] = p := List.dropLast_append_getLast hne
            have hu : p.getLast hne = u := by
              have := List.getLast?_eq_getLast p hne
              rw [this] at hlast
              exact Option.some_injective _ hlast
            have hchild := Hvisit nb visited dbuf1 acc src (p ++ [nb]) hnbf
              (by
                match p, hhead with
                | a :: t, hhead => simpa using hhead)
              (by rw [List.getLast?_concat])
              (by
                rw [List.nodup_append]
                refine ⟨hnodup, List.nodup_singleton nb, ?_⟩
                intro x hx hx'
                have hxnb : x = nb := by simpa using hx'
                rw [hxnb] at hx
                rw [hvisp nb hx] at hnbf
                cases hnbf)
              (by
                rw [List.chain'_append]
                refine ⟨hchain, List.chain'_singleton nb, ?_⟩
                intro x hx y hy
                have hxu : x = u := by
                  rw [hlast] at hx
                  exact (Option.mem_some_iff.1 hx).symm
                have hynb : y = nb := by
                  exact (Option.mem_some_iff.1 hy).symm
                rw [hxu, hynb]
                refine ⟨flag, hsub (nb, flag) (List.mem_cons_self _ _), ?_⟩
                cases isBoeg
                · right
                  cases flag
                  · rfl
                  · simp at hskip
                · left; rfl)
              (by
                rw [List.dropLast_concat]
                exact hvisp)
              (by
                rw [hdbuf1, fupd_self, hdb, List.length_append, List.length_singleton]
                push_cast
                ring)
              v hstep
            exact hchild
          · exact Or.inr hstep
        · exact ih visited (fupd dbuf nb (dbuf u + 1)) acc src p hsubr hhead hlast
            hnodup hchain hvisp
            (by rw [fupd_ne _ _ _ _ (Ne.symm hnbu)]; exact hdb) v hv

theorem dfsVisit_sound (g : Graph) (isBoeg : Bool) (d : Int) :
    ∀ (fuel : Nat) (u : Nat) (visited : Nat → Bool) (dbuf : Nat → Int)
      (acc : List Nat) (src : Nat) (p : List Nat), visited u = false →
      p.head? = some src → p.getLast? = some u → p.Nodup →
      List.Chain' (adjacentB g isBoeg) p →
      (∀ x ∈ p.dropLast, visited x = true) →
      dbuf u = (p.length : Int) - 1 →
      ∀ v ∈ (dfsVisit g isBoeg fuel d u visited dbuf acc).2.2,
        v ∈ acc ∨ ∃ q, IsSimplePath g isBoeg q src v ∧ (q.length : Int) = d + 1 := by
  intro fuel
  induction fuel with
  | zero =>
    intro u visited dbuf acc src p _ _ _ _ _ _ _ v hv
    simp only [dfsVisit] at hv
    exact Or.inl hv
  | succ fuel ih =>
    intro u visited dbuf acc src p hu hhead hlast hnodup hchain hvisp hdb v hv
    simp only [dfsVisit] at hv
    split at hv
    · rename_i hdd
      rcases HashMap_insert_mem acc u v hv with h | h
      · exact Or.inl h
      · right
        refine ⟨p, ⟨hhead, by rw [h]; exact hlast, hnodup, hchain⟩, ?_⟩
        rw [hdb] at hdd
        omega
    · have hstep := dfsEdges_sound g isBoeg d fuel ih u (g.adj u)
        (fupd visited u true) dbuf acc src p (fun e he => he) hhead hlast hnodup hchain
        (fun x hx => by
          rcases mem_of_mem_concat hlast hx with hx | hx
          · by_cases hxu : x = u
            · rw [hxu]; exact fupd_self _ _ _
            · rw [fupd_ne _ _ _ _ hxu]; exact hvisp x hx
          · rw [hx]; exact fupd_self _ _ _)
        hdb v hv
      exact hstep

/-- Every vertex collected by `Graph_reachable_pos` is joined to the source by
a simple path of length exactly `distance` over the caller's traversable
edges. -/
theorem Graph_reachable_pos_sound (g : Graph) (isBoeg : Bool) (src : Nat)
    (d : Int) (hd : 0 ≤ d) (v : Nat) (hv : v ∈ Graph_reachable_pos g isBoeg src d) :
    ∃ q, IsSimplePath g isBoeg q src v ∧ q.length = d.toNat + 1 := by
  have h := dfsVisit_sound g isBoeg d (d.toNat + 1) src (fun _ => false)
    (fun x => if x = src then 0 else -1) [] src [src] rfl rfl rfl
    (List.nodup_singleton src) (List.chain'_singleton src) (by simp)
    (by simp) v hv
  rcases h with h | ⟨q, hq1, hq2⟩
  · cases h
  · exact ⟨q, hq1, by omega⟩

/-! ## Backtracking DFS: completeness (every simple path of the right length
is found) -/

theorem dfsEdges_complete (g : Graph) (isBoeg : Bool) (d : Int) (fuel : Nat)
    (Hvisit : ∀ u visited dbuf acc q, (d - dbuf u).toNat < fuel → dbuf u ≤ d →
      q.head? = some u → q.Nodup → List.Chain' (adjacentB g isBoeg) q →
      (∀ x ∈ q, visited x = false) →
      dbuf u + (q.length : Int) - 1 = d →
      ∀ v, q.getLast? = some v →
        v ∈ (dfsVisit g isBoeg fuel d u visited dbuf acc).2.2) :
    ∀ (u : Nat) (edges : List (Nat × Bool)) (visited : Nat → Bool)
      (dbuf : Nat → Int) (acc : List Nat) (w : Nat) (flag : Bool) (q' : List Nat),
      (w, flag) ∈ edges → ¬(!isBoeg && flag) = true → visited u = true →
      q'.head? = some w → q'.Nodup → List.Chain' (adjacentB g isBoeg) q' →
      (∀ x ∈ q', visited x = false) →
      dbuf u + (q'.length : Int) = d →
      (d - (dbuf u + 1)).toNat < fuel →
      ∀ v, q'.getLast? = some v →
        v ∈ (dfsEdges g isBoeg fuel d u edges visited dbuf acc).2.2 := by
  intro u edges
  induction edges with
  | nil =>
    intro visited dbuf acc w flag q' hmem
    cases hmem
  | cons e rest ih =>
    intro visited dbuf acc w flag q' hmem htrav hu hq'head hq'nodup hq'chain
      hq'unvis hlen hfuel v hv
    obtain ⟨nb, fl⟩ := e
    have hq'ne : q' ≠ [] := by
      intro h; rw [h] at hq'head; cases hq'head
    have hq'len : 1 ≤ q'.length := by
      cases q'
      · exact absurd rfl hq'ne
      · simp
    have hwq' : w ∈ q' := by
      cases q' with
      | nil => exact absurd rfl hq'ne
      | cons a t =>
        have : a = w := by
          have : some a = some w := hq'head
          exact Option.some_injective _ this
        rw [this]
        exact List.mem_cons_self _ _
    have hwvis : visited w = false := hq'unvis w hwq'
    have hdb1 : dbuf u + 1 ≤ d := by omega
    by_cases hA : ¬(!isBoeg && fl) = true ∧ visited nb = false ∧ nb = w
    · obtain ⟨hA1, hA2, hA3⟩ := hA
      simp only [dfsEdges]
      rw [if_neg hA1, if_neg (by rw [hA2]; exact Bool.false_ne_true)]
      have hguard : fupd dbuf nb (dbuf u + 1) nb ≤ d := by
        rw [fupd_self]; exact hdb1
      rw [if_pos hguard]
      apply dfsEdges_acc_mono
      apply Hvisit nb visited (fupd dbuf nb (dbuf u + 1)) acc q'
      · rw [fupd_self]; omega
      · rw [fupd_self]; exact hdb1
      · rw [hA3]; exact hq'head
      · exact hq'nodup
      · exact hq'chain
      · exact hq'unvis
      · rw [fupd_self]; omega
      · exact hv
    · have hmemr : (w, flag) ∈ rest := by
        rcases List.mem_cons.1 hmem with h | h
        · exfalso
          have h1 : w = nb := (Prod.mk.inj h).1
          have h2 : flag = fl := (Prod.mk.inj h).2
          apply hA
          exact ⟨by rw [← h2]; exact htrav, by rw [← h1]; exact hwvis, h1.symm⟩
        · exact h
      simp only [dfsEdges]
      split
      · exact ih visited dbuf acc w flag q' hmemr htrav hu hq'head hq'nodup
          hq'chain hq'unvis hlen hfuel v hv
      · split
        · exact ih visited dbuf acc w flag q' hmemr htrav hu hq'head hq'nodup
            hq'chain hq'unvis hlen hfuel v hv
        · rename_i hskip hnbvis
          have hnbf : visited nb = false := by simpa using hnbvis
          have hnbu : nb ≠ u := by
            intro h; rw [h, hu] at hnbf; cases hnbf
          have hguard : fupd dbuf nb (dbuf u + 1) nb ≤ d := by
            rw [fupd_self]; exact hdb1
          rw [if_pos hguard]
          set r := dfsVisit g isBoeg fuel d nb visited (fupd dbuf nb (dbuf u + 1)) acc
            with hrdef
          obtain ⟨hf1, hf2, _⟩ := dfsVisit_frame g isBoeg fuel d nb visited
            (fupd dbuf nb (dbuf u + 1)) acc hnbf
          have hdbu : r.2.1 u = dbuf u := by
            rw [hf2 u (Or.inl hu), fupd_ne _ _ _ _ (Ne.symm hnbu)]
          apply ih r.1 r.2.1 r.2.2 w flag q' hmemr htrav
          · rw [hf1 u]; exact hu
          · exact hq'head
          · exact hq'nodup
          · exact hq'chain
          · intro x hx
            rw [hf1 x]
            exact hq'unvis x hx
          · rw [hdbu]; exact hlen
          · rw [hdbu]; exact hfuel
          · exact hv

theorem dfsVisit_complete (g : Graph) (isBoeg : Bool) (d : Int) :
    ∀ (fuel : Nat) (u : Nat) (visited : Nat → Bool) (dbuf : Nat → Int)
      (acc : List Nat) (q : List Nat), (d - dbuf u).toNat < fuel → dbuf u ≤ d →
      q.head? = some u → q.Nodup → List.Chain' (adjacentB g isBoeg) q →
      (∀ x ∈ q, visited x = false) →
      dbuf u + (q.length : Int) - 1 = d →
      ∀ v, q.getLast? = some v →
        v ∈ (dfsVisit g isBoeg fuel d u visited dbuf acc).2.2 := by
  intro fuel
  induction fuel with
  | zero =>
    intro u visited dbuf acc q hfuel
    omega
  | succ fuel ih =>
    intro u visited dbuf acc q hfuel hdb hqhead hqnodup hqchain hqunvis hlen v hv
    cases q with
    | nil => cases hqhead
    | cons u' q' =>
      have hU : u' = u := by
        have h : some u' = some u := hqhead
        exact Option.some_injective _ h
      rw [hU] at hqnodup hqchain hqunvis hlen hv
      cases q' with
      | nil =>
        have hdd : dbuf u = d := by
          simp only [List.length_cons, List.length_nil] at hlen
          push_cast at hlen
          omega
        have hvu : v = u := by
          have h : some u = some v := hv
          exact (Option.some_injective _ h).symm
        simp only [dfsVisit]
        rw [if_pos hdd, hvu]
        exact HashMap_insert_mem_self acc u
      | cons w q'' =>
        have hne : ¬(dbuf u = d) := by
          simp only [List.length_cons] at hlen
          push_cast at hlen
          omega
        simp only [dfsVisit]
        rw [if_neg hne]
        have hadj : adjacentB g isBoeg u w ∧
            List.Chain' (adjacentB g isBoeg) (w :: q'') := by
          exact List.chain'_cons.1 hqchain
        obtain ⟨⟨fl, hfl1, hfl2⟩, hchain'⟩ := hadj
        have htrav : ¬(!isBoeg && fl) = true := by
          rcases hfl2 with h | h
          · rw [h]; simp
          · rw [h]; simp
        apply dfsEdges_complete g isBoeg d fuel ih u (g.adj u)
          (fupd visited u true) dbuf acc w fl (w :: q'') hfl1 htrav
          (fupd_self _ _ _)
        · rfl
        · exact (List.nodup_cons.1 hqnodup).2
        · exact hchain'
        · intro x hx
          have hxu : x ≠ u := by
            intro h
            have := List.nodup_cons.1 hqnodup
            exact this.1 (by rw [← h]; exact hx)
          rw [fupd_ne _ _ _ _ hxu]
          exact hqunvis x (List.mem_cons_of_mem _ hx)
        · simp only [List.length_cons] at hlen ⊢
          push_cast at hlen ⊢
          omega
        · simp only [List.length_cons] at hlen
          push_cast at hlen
          omega
        · rw [← hv, List.getLast?_cons_cons]

/-- Every vertex joined to the source by a simple path of length exactly
`distance` over the caller's traversable edges is collected by
`Graph_reachable_pos`. -/
theorem Graph_reachable_pos_complete (g : Graph) (isBoeg : Bool) (src : Nat)
    (d : Int) (hd : 0 ≤ d) (v : Nat) (q : List Nat)
    (hq : IsSimplePath g isBoeg q src v) (hlen : q.length = d.toNat + 1) :
    v ∈ Graph_reachable_pos g isBoeg src d := by
  obtain ⟨hhead, hlast, hnodup, hchain⟩ := hq
  have h0 : (fun x => if x = src then (0 : Int) else -1) src = 0 := by simp
  apply dfsVisit_complete g isBoeg d (d.toNat + 1) src (fun _ => false)
    (fun x => if x = src then 0 else -1) [] q
  · show (d - if src = src then (0 : Int) else -1).toNat < d.toNat + 1
    rw [if_pos rfl]
    omega
  · show (if src = src then (0 : Int) else -1) ≤ d
    rw [if_pos rfl]
    exact hd
  · exact hhead
  · exact hnodup
  · exact hchain
  · intro x _; rfl
  · show (if src = src then (0 : Int) else -1) + (q.length : Int) - 1 = d
    rw [if_pos rfl, hlen]
    push_cast
    omega
  · exact hlast

/-- C4: `Graph_reachable_pos` returns exactly the set of vertices joined to
the source by at least one simple (non-revisiting) path of length exactly
`distance` over the edges the caller may traverse; the source itself is
excluded unless the distance is zero, in which case it is the sole member
kind of path `[src]`. -/
theorem C4_reachable_exact_distance (g : Graph) (isBoeg : Bool) (src : Nat)
    (d : Int) (hd : 0 ≤ d) :
    (∀ v, v ∈ Graph_reachable_pos g isBoeg src d ↔
      ∃ q, IsSimplePath g isBoeg q src v ∧ q.length = d.toNat + 1) ∧
    (0 < d → src ∉ Graph_reachable_pos g isBoeg src d) ∧
    (d = 0 → src ∈ Graph_reachable_pos g isBoeg src d) := by
  refine ⟨?_, ?_, ?_⟩
  · intro v
    constructor
    · exact Graph_reachable_pos_sound g isBoeg src d hd v
    · rintro ⟨q, hq1, hq2⟩
      exact Graph_reachable_pos_complete g isBoeg src d hd v q hq1 hq2
  · intro hdpos hmem
    obtain ⟨q, ⟨hhead, hlast, hnodup, _⟩, hlen⟩ :=
      Graph_reachable_pos_sound g isBoeg src d hd src hmem
    cases q with
    | nil => cases hhead
    | cons a t =>
      have ha : a = src := Option.some_injective _ hhead
      cases t with
      | nil =>
        simp only [List.length_cons, List.length_nil] at hlen
        omega
      | cons b t' =>
        have hlast' : (b :: t').getLast? = some src := by
          rw [← hlast, List.getLast?_cons_cons]
        have hmem' : src ∈ b :: t' := by
          have hne : (b :: t') ≠ [] := by simp
          have := List.getLast?_eq_getLast (b :: t') hne
          rw [this] at hlast'
          have heq := Option.some_injective _ hlast'
          rw [← heq]
          exact List.getLast_mem hne
        have := List.nodup_cons.1 hnodup
        rw [ha] at this
        exact this.1 hmem'
  · intro hd0
    apply Graph_reachable_pos_complete g isBoeg src d hd src [src]
    · exact ⟨rfl, rfl, List.nodup_singleton src, List.chain'_singleton src⟩
    · simp [hd0]

/-- Witness for C4: on the example board, distance 2 from vertex 0 as the mark
holder excludes the source itself. -/
theorem C4_reachable_exact_distance_witness :
    ((0 : Int) ≤ 2 ∧ (0 : Int) < 2) ∧ 0 ∉ Graph_reachable_pos gEx true 0 2 :=
  ⟨⟨by decide, by decide⟩,
   (C4_reachable_exact_distance gEx true 0 2 (by decide)).2.1 (by decide)⟩

/-! ## Shuffle is a permutation; target dealing (claim C6) -/

theorem count_set_balance : ∀ (l : List Nat) (i : Nat), i < l.length →
    ∀ a b : Nat, (l.set i a).count b + (if l.getD i 0 = b then 1 else 0) =
      l.count b + (if a = b then 1 else 0) := by
  intro l
  induction l with
  | nil => intro i hi; simp at hi
  | cons x t ih =>
    intro i hi a b
    cases i with
    | zero =>
      simp only [List.set_cons_zero, List.getD_cons_zero, List.count_cons, beq_iff_eq]
      split_ifs <;> simp_all
    | succ i =>
      simp only [List.set_cons_succ, List.getD_cons_succ, List.count_cons, beq_iff_eq]
      have h := ih i (by simpa using hi) a b
      split_ifs at h ⊢ <;> simp_all

theorem getD_set_self (l : List Nat) (j x : Nat) (h : j < l.length) :
    (l.set j x).getD j 0 = x := by
  rw [List.getD_eq_getElem (l.set j x) 0 (by rw [List.length_set]; exact h)]
  exact List.getElem_set_self _

theorem getD_set_ne (l : List Nat) (i j x : Nat) (h : i ≠ j) :
    (l.set j x).getD i 0 = l.getD i 0 := by
  simp only [List.getD_eq_getElem?_getD]
  rw [List.getElem?_set_ne (Ne.symm h)]

theorem listSwap_perm (a : List Nat) (i j : Nat) (hi : i < a.length)
    (hj : j < a.length) : (listSwap a i j).Perm a := by
  rw [List.perm_iff_count]
  intro b
  have h1 := count_set_balance a j hj (a.getD i 0) b
  have hlen1 : (a.set j (a.getD i 0)).length = a.length := List.length_set a j _
  have h2 := count_set_balance (a.set j (a.getD i 0)) i
    (by rw [hlen1]; exact hi) (a.getD j 0) b
  have hgd : (a.set j (a.getD i 0)).getD i 0 = a.getD i 0 := by
    by_cases hij : i = j
    · subst hij
      exact getD_set_self a i (a.getD i 0) hj
    · exact getD_set_ne a i j _ hij
  rw [hgd] at h2
  show ((a.set j (a.getD i 0)).set i (a.getD j 0)).count b = a.count b
  split_ifs at h1 h2 <;> omega

theorem listSwap_length (a : List Nat) (i j : Nat) :
    (listSwap a i j).length = a.length := by
  simp [listSwap]

theorem shuffleStep_j_lt (n i r : Nat) (hi : i < n - 1) (hr : r ≤ RAND_MAX_C) :
    i + r / (RAND_MAX_C / (n - i) + 1) < n := by
  set m := n - i with hm
  have hm2 : 2 ≤ m := by omega
  have hmod := Nat.div_add_mod RAND_MAX_C m
  have hmlt := Nat.mod_lt RAND_MAX_C (show 0 < m by omega)
  have hdiv : r / (RAND_MAX_C / m + 1) < m := by
    apply Nat.div_lt_of_lt_mul
    have hcomm : (RAND_MAX_C / m + 1) * m = m * (RAND_MAX_C / m) + m := by ring
    omega
  omega

theorem shuffle_foldl_perm (n : Nat) (a0 : List Nat) (h0 : a0.length = n) :
    ∀ (l : List Nat) (st : List Nat × List Nat),
      (∀ i ∈ l, i < n - 1) → st.1.Perm a0 → st.1.length = n →
      ((l.foldl (shuffleStep n) st).1.Perm a0 ∧
        (l.foldl (shuffleStep n) st).1.length = n) := by
  intro l
  induction l with
  | nil => intro st _ hperm hlen; exact ⟨hperm, hlen⟩
  | cons i rest ih =>
    intro st hmem hperm hlen
    have hi : i < n - 1 := hmem i (List.mem_cons_self _ _)
    have hr : (randC st.2).1 ≤ RAND_MAX_C := by
      have := Nat.mod_lt (st.2.headD 0) (show 0 < RAND_MAX_C + 1 by omega)
      simp only [randC]
      omega
    have hj := shuffleStep_j_lt n i (randC st.2).1 hi hr
    have hstep1 : (shuffleStep n st i).1 =
        listSwap st.1 i (i + (randC st.2).1 / (RAND_MAX_C / (n - i) + 1)) := rfl
    have hperm' : (shuffleStep n st i).1.Perm a0 := by
      rw [hstep1]
      exact (listSwap_perm st.1 i _ (by omega) (by rw [hlen]; exact hj)).trans hperm
    have hlen' : (shuffleStep n st i).1.length = n := by
      rw [hstep1, listSwap_length, hlen]
    exact ih (shuffleStep n st i) (fun x hx => hmem x (List.mem_cons_of_mem _ hx))
      hperm' hlen'

theorem shuffle_perm (a rng : List Nat) :
    (shuffle a rng).1.Perm a ∧ (shuffle a rng).1.length = a.length := by
  unfold shuffle
  split
  · apply shuffle_foldl_perm a.length a rfl
    · intro i hi
      exact List.mem_range.1 hi
    · exact List.Perm.refl a
    · rfl
  · exact ⟨List.Perm.refl a, rfl⟩

theorem map_getD_range_eq_take (m : Nat) (l : List Nat) (h : m ≤ l.length) :
    (List.range m).map (fun k => l.getD k 0) = l.take m := by
  induction m with
  | zero => simp
  | succ m ih =>
    have hm : m < l.length := by omega
    rw [List.range_succ, List.map_append, ih (by omega), List.take_succ,
      List.getElem?_eq_getElem hm]
    simp only [List.map_cons, List.map_nil]
    rw [List.getD_eq_getElem l 0 hm]
    rfl

theorem chunks_flatten (c : Nat) :
    ∀ (k : Nat) (l : List Nat),
      ((List.range k).map (fun p => (l.drop (c * p)).take c)).flatten = l.take (c * k) := by
  intro k
  induction k with
  | zero => intro l; simp
  | succ k ih =>
    intro l
    rw [List.range_succ, List.map_append, List.flatten_append]
    simp only [List.map_cons, List.map_nil, List.flatten_cons, List.flatten_nil,
      List.append_nil]
    rw [ih l]
    have hck : c * (k + 1) = c * k + c := by ring
    rw [hck, List.take_add]

/-- C6: after `GameState_init`, the shuffled 40-entry target pool is a
permutation of the ids `0..39`, each player's 4-slot slice is the next 4 pool
entries (so the dealt slices together are the pool's first `4 * nPlayers`
entries), the slices are duplicate-free and pairwise disjoint, and the mark
starts on the pool entry just past the dealt slices. -/
theorem C6_init_deals_disjoint_targets (nPlayers nPositions : Nat)
    (rng : List Nat) (h3 : 3 ≤ nPlayers) (h6 : nPlayers ≤ 6) :
    (GameState_init nPlayers nPositions rng).1.targets.Perm (List.range N_TARGETS) ∧
    (GameState_init nPlayers nPositions rng).1.player_targets =
      (GameState_init nPlayers nPositions rng).1.targets.take (nPlayers * N_TARGETS_PLAYER) ∧
    (GameState_init nPlayers nPositions rng).1.player_targets.Nodup ∧
    (∀ p, p < nPlayers →
      (((GameState_init nPlayers nPositions rng).1.player_targets.drop
          (N_TARGETS_PLAYER * p)).take N_TARGETS_PLAYER).Nodup) ∧
    (∀ p q, p < nPlayers → q < nPlayers → p ≠ q →
      List.Disjoint
        (((GameState_init nPlayers nPositions rng).1.player_targets.drop
            (N_TARGETS_PLAYER * p)).take N_TARGETS_PLAYER)
        (((GameState_init nPlayers nPositions rng).1.player_targets.drop
            (N_TARGETS_PLAYER * q)).take N_TARGETS_PLAYER)) ∧
    (GameState_init nPlayers nPositions rng).1.boeg_pos =
      (GameState_init nPlayers nPositions rng).1.targets.getD
        (nPlayers * N_TARGETS_PLAYER) 0 := by
  have hT : (GameState_init nPlayers nPositions rng).1.targets =
      (shuffle (List.range N_TARGETS) (shuffle (List.range nPlayers) rng).2).1 := by
    simp only [GameState_init]
  have hPT : (GameState_init nPlayers nPositions rng).1.player_targets =
      (List.range (nPlayers * N_TARGETS_PLAYER)).map
        (fun k => (GameState_init nPlayers nPositions rng).1.targets.getD k 0) := by
    simp only [GameState_init]
  have hperm := shuffle_perm (List.range N_TARGETS)
    (shuffle (List.range nPlayers) rng).2
  have hlen : (GameState_init nPlayers nPositions rng).1.targets.length = N_TARGETS := by
    rw [hT, hperm.2, List.length_range]
  have hnd : (GameState_init nPlayers nPositions rng).1.targets.Nodup := by
    rw [hT]
    exact hperm.1.nodup_iff.2 (List.nodup_range N_TARGETS)
  have hle : nPlayers * N_TARGETS_PLAYER ≤
      (GameState_init nPlayers nPositions rng).1.targets.length := by
    rw [hlen]
    show nPlayers * 4 ≤ 40
    omega
  have htake : (GameState_init nPlayers nPositions rng).1.player_targets =
      (GameState_init nPlayers nPositions rng).1.targets.take
        (nPlayers * N_TARGETS_PLAYER) := by
    rw [hPT]
    exact map_getD_range_eq_take _ _ hle
  have hptnd : (GameState_init nPlayers nPositions rng).1.player_targets.Nodup := by
    rw [htake]
    exact (List.take_sublist _ _).nodup hnd
  have hptlen : (GameState_init nPlayers nPositions rng).1.player_targets.length =
      nPlayers * N_TARGETS_PLAYER := by
    rw [htake, List.length_take]
    omega
  have hjoin : ((List.range nPlayers).map
      (fun p => ((GameState_init nPlayers nPositions rng).1.player_targets.drop
        (N_TARGETS_PLAYER * p)).take N_TARGETS_PLAYER)).flatten =
      (GameState_init nPlayers nPositions rng).1.player_targets := by
    rw [chunks_flatten N_TARGETS_PLAYER nPlayers]
    rw [List.take_of_length_le (by rw [hptlen]; exact Nat.le_of_eq (Nat.mul_comm _ _))]
  have hjoinnd : (((List.range nPlayers).map
      (fun p => ((GameState_init nPlayers nPositions rng).1.player_targets.drop
        (N_TARGETS_PLAYER * p)).take N_TARGETS_PLAYER)).flatten).Nodup := by
    rw [hjoin]
    exact hptnd
  rw [List.nodup_flatten] at hjoinnd
  obtain ⟨hsl, hpw⟩ := hjoinnd
  refine ⟨by rw [hT]; exact hperm.1, htake, hptnd, ?_, ?_, by simp only [GameState_init]⟩
  · intro p hp
    exact hsl _ (List.mem_map_of_mem _ (List.mem_range.2 hp))
  · intro p q hp hq hpq
    have hpw' := (List.pairwise_map.1 hpw)
    exact hpw'.forall (fun x y hxy => List.Disjoint.symm hxy)
      (List.mem_range.2 hp) (List.mem_range.2 hq) hpq

/-- Witness for C6 with 3 players on a 45-vertex board and a fixed random
stream. -/
theorem C6_init_deals_disjoint_targets_witness :
    (3 ≤ 3 ∧ 3 ≤ 6) ∧
    (GameState_init 3 45 []).1.player_targets =
      (GameState_init 3 45 []).1.targets.take (3 * N_TARGETS_PLAYER) :=
  ⟨⟨by decide, by decide⟩,
   (C6_init_deals_disjoint_targets 3 45 [] (by decide) (by decide)).2.1⟩

/-! ## Avoidant objective minimization (claim C5) -/

theorem chain_lt_nVert (g : Graph) (isBoeg : Bool) (hWF : g.WF) :
    ∀ (p : List Nat) (u : Nat), List.Chain' (adjacentB g isBoeg) p →
      p.head? = some u → u < g.nVert → ∀ x ∈ p, x < g.nVert := by
  intro p
  induction p with
  | nil => intro u _ hh; cases hh
  | cons a q ih =>
    intro u hch hh hu x hx
    have ha : a = u := by injection hh
    rcases List.mem_cons.1 hx with h | h
    · rw [h, ha]; exact hu
    · cases q with
      | nil => cases h
      | cons b q' =>
        have hadj : adjacentB g isBoeg a b := (List.chain'_cons.1 hch).1
        obtain ⟨fl, hmem, _⟩ := hadj
        have hb : b < g.nVert := hWF a (b, fl) hmem
        exact ih b (List.chain'_cons.1 hch).2 rfl hb x h

/-- On a well-formed graph every vertex collected by the exact-distance DFS is
a real vertex, since it ends a traversable simple path from the source. -/
theorem reachable_pos_lt_nVert (g : Graph) (isBoeg : Bool) (src : Nat) (d : Int)
    (hd : 0 ≤ d) (hWF : g.WF) (hsrc : src < g.nVert) (v : Nat)
    (hv : v ∈ Graph_reachable_pos g isBoeg src d) : v < g.nVert := by
  obtain ⟨q, ⟨hh, hl, _, hch⟩, _⟩ :=
    Graph_reachable_pos_sound g isBoeg src d hd v hv
  have hvq : v ∈ q := List.mem_of_getLast?_eq_some hl
  exact chain_lt_nVert g isBoeg hWF q src hch hh hsrc v hvq

/-- Generic argmin-fold invariant for a step that skips occupied candidates,
records the first unoccupied candidate, and replaces the record only on a
strict objective decrease: the result is the initial state or records an
unoccupied scanned candidate, its recorded value is that candidate's
objective, every unoccupied scanned candidate bounds the record from above,
and the record only decreases. -/
theorem fold_argmin_spec (occ : Nat → Bool) (obj : Nat → ℚ)
    (f : Option ℚ × Nat → Nat → Option ℚ × Nat)
    (hf1 : ∀ st j, occ j = true → f st j = st)
    (hf2 : ∀ st j, occ j = false → st.1 = none → f st j = (some (obj j), j))
    (hf3 : ∀ st j m, occ j = false → st.1 = some m → obj j < m →
      f st j = (some (obj j), j))
    (hf4 : ∀ st j m, occ j = false → st.1 = some m → ¬ obj j < m → f st j = st) :
    ∀ (l : List Nat) (st r : Option ℚ × Nat), l.foldl f st = r →
      (∀ m, st.1 = some m → occ st.2 = false ∧ m = obj st.2) →
      ((∀ m, r.1 = some m → occ r.2 = false ∧ m = obj r.2) ∧
       (r = st ∨ (r.2 ∈ l ∧ r.1 = some (obj r.2))) ∧
       (∀ j ∈ l, occ j = false → ∃ m, r.1 = some m ∧ m ≤ obj j) ∧
       (∀ m, st.1 = some m → ∃ m', r.1 = some m' ∧ m' ≤ m)) := by
  intro l
  induction l with
  | nil =>
    intro st r hr hgood
    simp only [List.foldl_nil] at hr
    subst hr
    refine ⟨hgood, Or.inl rfl, ?_, ?_⟩
    · intro j hj; cases hj
    · intro m hm; exact ⟨m, hm, le_refl m⟩
  | cons j rest ih =>
    intro st r hr hgood
    simp only [List.foldl_cons] at hr
    by_cases hocc : occ j = true
    · rw [hf1 st j hocc] at hr
      obtain ⟨p1, p2, p3, p4⟩ := ih st r hr hgood
      refine ⟨p1, ?_, ?_, p4⟩
      · rcases p2 with h | ⟨hm, he⟩
        · exact Or.inl h
        · exact Or.inr ⟨List.mem_cons_of_mem j hm, he⟩
      · intro j' hj' hocc'
        rcases List.mem_cons.1 hj' with h | h
        · rw [h] at hocc'; rw [hocc'] at hocc; cases hocc
        · exact p3 j' h hocc'
    · have hoccF : occ j = false := by
        cases h : occ j
        · rfl
        · exact absurd h hocc
      cases hm1 : st.1 with
      | none =>
        rw [hf2 st j hoccF hm1] at hr
        have hgood' : ∀ m, (((some (obj j) : Option ℚ), j)).1 = some m →
            occ (((some (obj j) : Option ℚ), j)).2 = false ∧
            m = obj (((some (obj j) : Option ℚ), j)).2 := by
          intro m hm
          have hm' : some (obj j) = some m := hm
          have hobj : obj j = m := by injection hm'
          exact ⟨hoccF, hobj.symm⟩
        obtain ⟨p1, p2, p3, p4⟩ := ih _ r hr hgood'
        obtain ⟨m', hm'1, hm'2⟩ := p4 (obj j) rfl
        refine ⟨p1, ?_, ?_, ?_⟩
        · rcases p2 with h | ⟨hm, he⟩
          · rw [h]
            exact Or.inr ⟨List.mem_cons_self j rest, rfl⟩
          · exact Or.inr ⟨List.mem_cons_of_mem j hm, he⟩
        · intro j' hj' hocc'
          rcases List.mem_cons.1 hj' with h | h
          · rw [h]
            exact ⟨m', hm'1, hm'2⟩
          · exact p3 j' h hocc'
        · intro m hm
          cases hm
      | some m0 =>
        by_cases hlt : obj j < m0
        · rw [hf3 st j m0 hoccF hm1 hlt] at hr
          have hgood' : ∀ m, (((some (obj j) : Option ℚ), j)).1 = some m →
              occ (((some (obj j) : Option ℚ), j)).2 = false ∧
              m = obj (((some (obj j) : Option ℚ), j)).2 := by
            intro m hm
            have hm' : some (obj j) = some m := hm
            have hobj : obj j = m := by injection hm'
            exact ⟨hoccF, hobj.symm⟩
          obtain ⟨p1, p2, p3, p4⟩ := ih _ r hr hgood'
          obtain ⟨m', hm'1, hm'2⟩ := p4 (obj j) rfl
          refine ⟨p1, ?_, ?_, ?_⟩
          · rcases p2 with h | ⟨hm, he⟩
            · rw [h]
              exact Or.inr ⟨List.mem_cons_self j rest, rfl⟩
            · exact Or.inr ⟨List.mem_cons_of_mem j hm, he⟩
          · intro j' hj' hocc'
            rcases List.mem_cons.1 hj' with h | h
            · rw [h]
              exact ⟨m', hm'1, hm'2⟩
            · exact p3 j' h hocc'
          · intro m hm
            have hm0m : m0 = m := by injection hm
            refine ⟨m', hm'1, ?_⟩
            rw [← hm0m]
            exact le_of_lt (lt_of_le_of_lt hm'2 hlt)
        · rw [hf4 st j m0 hoccF hm1 hlt] at hr
          obtain ⟨p1, p2, p3, p4⟩ := ih st r hr hgood
          obtain ⟨m', hm'1, hm'2⟩ := p4 m0 hm1
          refine ⟨p1, ?_, ?_, ?_⟩
          · rcases p2 with h | ⟨hm, he⟩
            · exact Or.inl h
            · exact Or.inr ⟨List.mem_cons_of_mem j hm, he⟩
          · intro j' hj' hocc'
            rcases List.mem_cons.1 hj' with h | h
            · rw [h]
              exact ⟨m', hm'1, le_trans hm'2 (not_lt.1 hlt)⟩
            · exact p3 j' h hocc'
          · intro m hm
            have hm0m : m0 = m := by injection hm
            rw [← hm0m]
            exact p4 m0 hm1

/-- Unfolding `selectMinObjective` into its candidate fold. -/
theorem selectMinObjective_unfold (binfo : BoardInfo) (gs : GameState)
    (pid : Nat) (avoidance : ℚ) (cands : List Nat) :
    selectMinObjective binfo gs pid avoidance cands =
      (cands.foldl
        (fun (st : Option ℚ × Nat) j =>
          if opponent_at_target gs j pid then st
          else
            let ob := avoidObjective binfo gs pid j avoidance
            match st.1 with
            | none => (some ob, j)
            | some m => if ob < m then (some ob, j) else st)
        (none, binfo.nPositions)).2 := rfl

/-- `selectMinObjective` returns the `nPositions` sentinel when every candidate
is occupied, and otherwise an unoccupied candidate whose objective is minimal
among the unoccupied candidates. -/
theorem selectMinObjective_spec (binfo : BoardInfo) (gs : GameState)
    (pid : Nat) (avoidance : ℚ) (cands : List Nat) :
    ((∀ j ∈ cands, opponent_at_target gs j pid = true) →
      selectMinObjective binfo gs pid avoidance cands = binfo.nPositions) ∧
    ((∃ j ∈ cands, opponent_at_target gs j pid = false) →
      selectMinObjective binfo gs pid avoidance cands ∈ cands ∧
      opponent_at_target gs (selectMinObjective binfo gs pid avoidance cands)
        pid = false ∧
      ∀ j ∈ cands, opponent_at_target gs j pid = false →
        avoidObjective binfo gs pid
            (selectMinObjective binfo gs pid avoidance cands) avoidance ≤
          avoidObjective binfo gs pid j avoidance) := by
  have hb1 : ∀ (st : Option ℚ × Nat) (j : Nat), opponent_at_target gs j pid = true →
      (if opponent_at_target gs j pid then st
       else
         let ob := avoidObjective binfo gs pid j avoidance
         match st.1 with
         | none => (some ob, j)
         | some m => if ob < m then (some ob, j) else st) = st := by
    intro st j h
    rw [if_pos h]
  have hb2 : ∀ (st : Option ℚ × Nat) (j : Nat), opponent_at_target gs j pid = false →
      st.1 = none →
      (if opponent_at_target gs j pid then st
       else
         let ob := avoidObjective binfo gs pid j avoidance
         match st.1 with
         | none => (some ob, j)
         | some m => if ob < m then (some ob, j) else st) =
        ((some (avoidObjective binfo gs pid j avoidance) : Option ℚ), j) := by
    intro st j h h1
    obtain ⟨mo, c⟩ := st
    have hmo : mo = none := h1
    subst hmo
    rw [if_neg (by rw [h]; exact Bool.false_ne_true)]
  have hb3 : ∀ (st : Option ℚ × Nat) (j : Nat) (m : ℚ),
      opponent_at_target gs j pid = false → st.1 = some m →
      avoidObjective binfo gs pid j avoidance < m →
      (if opponent_at_target gs j pid then st
       else
         let ob := avoidObjective binfo gs pid j avoidance
         match st.1 with
         | none => (some ob, j)
         | some m => if ob < m then (some ob, j) else st) =
        ((some (avoidObjective binfo gs pid j avoidance) : Option ℚ), j) := by
    intro st j m h h1 hlt
    obtain ⟨mo, c⟩ := st
    have hmo : mo = some m := h1
    subst hmo
    rw [if_neg (by rw [h]; exact Bool.false_ne_true)]
    show (if avoidObjective binfo gs pid j avoidance < m
          then ((some (avoidObjective binfo gs pid j avoidance) : Option ℚ), j)
          else ((some m : Option ℚ), c)) = _
    rw [if_pos hlt]
  have hb4 : ∀ (st : Option ℚ × Nat) (j : Nat) (m : ℚ),
      opponent_at_target gs j pid = false → st.1 = some m →
      ¬ avoidObjective binfo gs pid j avoidance < m →
      (if opponent_at_target gs j pid then st
       else
         let ob := avoidObjective binfo gs pid j avoidance
         match st.1 with
         | none => (some ob, j)
         | some m => if ob < m then (some ob, j) else st) = st := by
    intro st j m h h1 hlt
    obtain ⟨mo, c⟩ := st
    have hmo : mo = some m := h1
    subst hmo
    rw [if_neg (by rw [h]; exact Bool.false_ne_true)]
    show (if avoidObjective binfo gs pid j avoidance < m
          then ((some (avoidObjective binfo gs pid j avoidance) : Option ℚ), j)
          else ((some m : Option ℚ), c)) = _
    rw [if_neg hlt]
  have hg0 : ∀ m, (((none : Option ℚ), binfo.nPositions)).1 = some m →
      opponent_at_target gs (((none : Option ℚ), binfo.nPositions)).2 pid = false ∧
      m = avoidObjective binfo gs pid
        (((none : Option ℚ), binfo.nPositions)).2 avoidance := by
    intro m hm
    simp at hm
  obtain ⟨P1, P2, P3, P4⟩ := fold_argmin_spec
    (fun j => opponent_at_target gs j pid)
    (fun j => avoidObjective binfo gs pid j avoidance)
    (fun (st : Option ℚ × Nat) j =>
      if opponent_at_target gs j pid then st
      else
        let ob := avoidObjective binfo gs pid j avoidance
        match st.1 with
        | none => (some ob, j)
        | some m => if ob < m then (some ob, j) else st)
    hb1 hb2 hb3 hb4 cands ((none : Option ℚ), binfo.nPositions) _ rfl hg0
  constructor
  · intro hall
    rw [selectMinObjective_unfold]
    rcases P2 with h | ⟨hm, he⟩
    · rw [h]
    · obtain ⟨ho, _⟩ := P1 _ he
      rw [hall _ hm] at ho
      cases ho
  · intro hex
    obtain ⟨j0, hj0, hocc0⟩ := hex
    obtain ⟨m, hm1, hm2⟩ := P3 j0 hj0 hocc0
    obtain ⟨hoccr, hobjr⟩ := P1 m hm1
    have hrmem : (cands.foldl
        (fun (st : Option ℚ × Nat) j =>
          if opponent_at_target gs j pid then st
          else
            let ob := avoidObjective binfo gs pid j avoidance
            match st.1 with
            | none => (some ob, j)
            | some m => if ob < m then (some ob, j) else st)
        (none, binfo.nPositions)).2 ∈ cands := by
      rcases P2 with h | ⟨hmm, _⟩
      · rw [h] at hm1; simp at hm1
      · exact hmm
    rw [selectMinObjective_unfold]
    refine ⟨hrmem, hoccr, ?_⟩
    intro j hj hocc
    obtain ⟨m', hm'1, hm'2⟩ := P3 j hj hocc
    have hmm' : m = m' := by
      rw [hm1] at hm'1
      injection hm'1
    have he1 : avoidObjective binfo gs pid
        ((cands.foldl
          (fun (st : Option ℚ × Nat) j =>
            if opponent_at_target gs j pid then st
            else
              let ob := avoidObjective binfo gs pid j avoidance
              match st.1 with
              | none => (some ob, j)
              | some m => if ob < m then (some ob, j) else st)
          (none, binfo.nPositions)).2) avoidance = m := hobjr.symm
    rw [he1, hmm']
    exact hm'2

/-- Pointwise-equal fold steps give equal folds. -/
theorem foldl_ptwise_eq {α β : Type} (f g : α → β → α) :
    ∀ (l : List β) (a : α), (∀ b ∈ l, ∀ x, f x b = g x b) →
      l.foldl f a = l.foldl g a := by
  intro l
  induction l with
  | nil => intro a _; rfl
  | cons b t ih =>
    intro a h
    simp only [List.foldl_cons]
    rw [h b (List.mem_cons_self b t) a]
    exact ih _ (fun b' hb' => h b' (List.mem_cons_of_mem b hb'))

/-- Folds whose step either skips an index or adds a per-index penalty are
monotone in the start value and the penalties. -/
theorem foldl_pen_le (sk : Nat → Prop) (h1 h2 : Nat → ℚ) (f1 f2 : ℚ → Nat → ℚ)
    (hf1 : ∀ a i, (sk i → f1 a i = a) ∧ (¬ sk i → f1 a i = a + h1 i))
    (hf2 : ∀ a i, (sk i → f2 a i = a) ∧ (¬ sk i → f2 a i = a + h2 i)) :
    ∀ (l : List Nat) (a1 a2 : ℚ), (∀ i ∈ l, ¬ sk i → h1 i ≤ h2 i) → a1 ≤ a2 →
      l.foldl f1 a1 ≤ l.foldl f2 a2 := by
  intro l
  induction l with
  | nil => intro a1 a2 _ ha; exact ha
  | cons i t ih =>
    intro a1 a2 hpt ha
    simp only [List.foldl_cons]
    by_cases hsk : sk i
    · rw [(hf1 a1 i).1 hsk, (hf2 a2 i).1 hsk]
      exact ih _ _ (fun i' hi' => hpt i' (List.mem_cons_of_mem i hi')) ha
    · rw [(hf1 a1 i).2 hsk, (hf2 a2 i).2 hsk]
      exact ih _ _ (fun i' hi' => hpt i' (List.mem_cons_of_mem i hi'))
        (add_le_add ha (hpt i (List.mem_cons_self i t) hsk))

theorem foldl_pen_lt (sk : Nat → Prop) (h1 h2 : Nat → ℚ) (f1 f2 : ℚ → Nat → ℚ)
    (hf1 : ∀ a i, (sk i → f1 a i = a) ∧ (¬ sk i → f1 a i = a + h1 i))
    (hf2 : ∀ a i, (sk i → f2 a i = a) ∧ (¬ sk i → f2 a i = a + h2 i)) :
    ∀ (l : List Nat) (a1 a2 : ℚ), (∀ i ∈ l, ¬ sk i → h1 i ≤ h2 i) → a1 < a2 →
      l.foldl f1 a1 < l.foldl f2 a2 := by
  intro l
  induction l with
  | nil => intro a1 a2 _ ha; exact ha
  | cons i t ih =>
    intro a1 a2 hpt ha
    simp only [List.foldl_cons]
    by_cases hsk : sk i
    · rw [(hf1 a1 i).1 hsk, (hf2 a2 i).1 hsk]
      exact ih _ _ (fun i' hi' => hpt i' (List.mem_cons_of_mem i hi')) ha
    · rw [(hf1 a1 i).2 hsk, (hf2 a2 i).2 hsk]
      exact ih _ _ (fun i' hi' => hpt i' (List.mem_cons_of_mem i hi'))
        (add_lt_add_of_lt_of_le ha (hpt i (List.mem_cons_self i t) hsk))

/-- Strict version at a member with a strictly smaller penalty. -/
theorem foldl_pen_lt_mem (sk : Nat → Prop) (h1 h2 : Nat → ℚ) (f1 f2 : ℚ → Nat → ℚ)
    (hf1 : ∀ a i, (sk i → f1 a i = a) ∧ (¬ sk i → f1 a i = a + h1 i))
    (hf2 : ∀ a i, (sk i → f2 a i = a) ∧ (¬ sk i → f2 a i = a + h2 i)) :
    ∀ (l : List Nat) (a1 a2 : ℚ), (∀ i ∈ l, ¬ sk i → h1 i ≤ h2 i) → a1 ≤ a2 →
      ∀ i0 ∈ l, ¬ sk i0 → h1 i0 < h2 i0 →
      l.foldl f1 a1 < l.foldl f2 a2 := by
  intro l
  induction l with
  | nil => intro a1 a2 _ _ i0 hi0; cases hi0
  | cons i t ih =>
    intro a1 a2 hpt ha i0 hi0 hsk0 hlt0
    simp only [List.foldl_cons]
    rcases List.mem_cons.1 hi0 with h | h
    · subst h
      rw [(hf1 a1 i0).2 hsk0, (hf2 a2 i0).2 hsk0]
      exact foldl_pen_lt sk h1 h2 f1 f2 hf1 hf2 t _ _
        (fun i' hi' => hpt i' (List.mem_cons_of_mem i0 hi'))
        (add_lt_add_of_le_of_lt ha hlt0)
    · by_cases hsk : sk i
      · rw [(hf1 a1 i).1 hsk, (hf2 a2 i).1 hsk]
        exact ih _ _ (fun i' hi' => hpt i' (List.mem_cons_of_mem i hi')) ha
          i0 h hsk0 hlt0
      · rw [(hf1 a1 i).2 hsk, (hf2 a2 i).2 hsk]
        exact ih _ _ (fun i' hi' => hpt i' (List.mem_cons_of_mem i hi'))
          (add_le_add ha (hpt i (List.mem_cons_self i t) hsk)) i0 h hsk0 hlt0

/-- Unfolding `avoidObjective` into its target-distance base fold and
opponent-penalty fold. -/
theorem avoidObjective_unfold (binfo : BoardInfo) (gs : GameState)
    (pid j : Nat) (avoidance : ℚ) :
    avoidObjective binfo gs pid j avoidance =
      (List.range gs.nPlayers).foldl
        (fun o i =>
          if i = pid ∨ AP_ISSET gs.active_players i = false then o
          else o + avoidance / avoidDenom binfo gs i j)
        ((List.range N_TARGETS_PLAYER).foldl
          (fun o i =>
            let target := gs.player_targets.getD (pid * N_TARGETS_PLAYER + i) 0
            if target = N_TARGETS then o
            else o + ((binfo.dist_boeg (j * binfo.nPositions + target) : ℚ))) 0) :=
  rfl

/-- C5: in an avoidant mark-holder move that captures no target directly, the
call returns `CONTINUE`; if every roll-reachable candidate hosts an active
opponent the mark stays put (the turn is skipped); otherwise the mark moves to
an unoccupied reachable candidate whose objective (target-distance sum plus
`avoidance / denom` per active opponent, the denominator doubled beyond the
die's reach) is minimal among all unoccupied candidates.  Moreover, with
`avoidance = 40`, a candidate whose sole active opponent stands at
player-distance 1 scores a strictly higher objective than an
otherwise-identical candidate whose opponent is beyond the die's reach. -/
theorem C5_avoidant_min_objective (binfo : BoardInfo) (gs : GameState)
    (pid roll : Nat) (avoidance : ℚ)
    (hWF : binfo.graph_boeg.WF)
    (hnp : binfo.nPositions = binfo.graph_boeg.nVert)
    (hsrc : gs.boeg_pos < binfo.graph_boeg.nVert)
    (hscan : avoidantScanAux binfo gs pid roll [0, 1, 2, 3] = none) :
    (GameState_move_avoidant_boeg binfo gs pid roll avoidance).1 =
      STATUS.CONTINUE ∧
    ((∀ j ∈ Graph_reachable_pos binfo.graph_boeg true gs.boeg_pos (roll : Int),
        opponent_at_target gs j pid = true) →
      (GameState_move_avoidant_boeg binfo gs pid roll avoidance).2 = gs) ∧
    ((∃ j ∈ Graph_reachable_pos binfo.graph_boeg true gs.boeg_pos (roll : Int),
        opponent_at_target gs j pid = false) →
      ∃ c ∈ Graph_reachable_pos binfo.graph_boeg true gs.boeg_pos (roll : Int),
        opponent_at_target gs c pid = false ∧
        (∀ j ∈ Graph_reachable_pos binfo.graph_boeg true gs.boeg_pos (roll : Int),
          opponent_at_target gs j pid = false →
          avoidObjective binfo gs pid c avoidance ≤
            avoidObjective binfo gs pid j avoidance) ∧
        (GameState_move_avoidant_boeg binfo gs pid roll avoidance).2 =
          { gs with boeg_pos := c }) ∧
    (∀ i j1 j2 : Nat,
      i < gs.nPlayers → i ≠ pid → AP_ISSET gs.active_players i = true →
      (∀ i', i' < gs.nPlayers → i' ≠ pid →
        AP_ISSET gs.active_players i' = true → i' = i) →
      binfo.dist_player (gs.player_pos.getD i 0 * binfo.nPositions + j1) = 1 →
      binfo.dist_player (gs.player_pos.getD i 0 * binfo.nPositions + j2) >
        (DIE_SIZE : Int) →
      (∀ k, k < N_TARGETS_PLAYER →
        binfo.dist_boeg (j1 * binfo.nPositions +
          gs.player_targets.getD (pid * N_TARGETS_PLAYER + k) 0) =
        binfo.dist_boeg (j2 * binfo.nPositions +
          gs.player_targets.getD (pid * N_TARGETS_PLAYER + k) 0)) →
      avoidObjective binfo gs pid j2 40 < avoidObjective binfo gs pid j1 40) := by
  have hmove : GameState_move_avoidant_boeg binfo gs pid roll avoidance =
      (if selectMinObjective binfo gs pid avoidance
          (Graph_reachable_pos binfo.graph_boeg true gs.boeg_pos (roll : Int)) ≠
          binfo.nPositions
       then (STATUS.CONTINUE, { gs with boeg_pos := selectMinObjective binfo gs pid avoidance (Graph_reachable_pos binfo.graph_boeg true gs.boeg_pos (roll : Int)) })
       else (STATUS.CONTINUE, gs)) := by
    unfold GameState_move_avoidant_boeg
    rw [hscan]
  have hcand : ∀ v ∈ Graph_reachable_pos binfo.graph_boeg true gs.boeg_pos
      (roll : Int), v < binfo.graph_boeg.nVert := fun v hv =>
    reachable_pos_lt_nVert binfo.graph_boeg true gs.boeg_pos (roll : Int)
      (Int.natCast_nonneg roll) hWF hsrc v hv
  obtain ⟨S1, S2⟩ := selectMinObjective_spec binfo gs pid avoidance
    (Graph_reachable_pos binfo.graph_boeg true gs.boeg_pos (roll : Int))
  refine ⟨?_, ?_, ?_, ?_⟩
  · rw [hmove]
    split
    · rfl
    · rfl
  · intro hall
    rw [hmove, S1 hall, if_neg (by intro h; exact h rfl)]
  · intro hex
    obtain ⟨hmem, hocc, hmin⟩ := S2 hex
    have hne : selectMinObjective binfo gs pid avoidance
        (Graph_reachable_pos binfo.graph_boeg true gs.boeg_pos (roll : Int)) ≠
        binfo.nPositions := by
      intro he
      have hv := hcand _ hmem
      rw [he, hnp] at hv
      exact lt_irrefl _ hv
    refine ⟨selectMinObjective binfo gs pid avoidance
      (Graph_reachable_pos binfo.graph_boeg true gs.boeg_pos (roll : Int)),
      hmem, hocc, hmin, ?_⟩
    rw [hmove, if_pos hne]
  · intro i j1 j2 hi hip hact huniq hd1 hd2 hbase
    have hden1 : avoidDenom binfo gs i j1 =
        ((binfo.dist_player (gs.player_pos.getD i 0 * binfo.nPositions + j1) :
          ℚ)) := by
      show (if binfo.dist_player (gs.player_pos.getD i 0 * binfo.nPositions + j1)
            > (DIE_SIZE : Int)
          then 2 * ((binfo.dist_player
            (gs.player_pos.getD i 0 * binfo.nPositions + j1) : ℚ))
          else ((binfo.dist_player
            (gs.player_pos.getD i 0 * binfo.nPositions + j1) : ℚ))) = _
      rw [if_neg (by rw [hd1]; decide)]
    have hden2 : avoidDenom binfo gs i j2 =
        2 * ((binfo.dist_player (gs.player_pos.getD i 0 * binfo.nPositions + j2) :
          ℚ)) := by
      show (if binfo.dist_player (gs.player_pos.getD i 0 * binfo.nPositions + j2)
            > (DIE_SIZE : Int)
          then 2 * ((binfo.dist_player
            (gs.player_pos.getD i 0 * binfo.nPositions + j2) : ℚ))
          else ((binfo.dist_player
            (gs.player_pos.getD i 0 * binfo.nPositions + j2) : ℚ))) = _
      rw [if_pos hd2]
    have hterm : (40 : ℚ) / avoidDenom binfo gs i j2 <
        40 / avoidDenom binfo gs i j1 := by
      rw [hden1, hden2, hd1]
      have h6 : (DIE_SIZE : Int) = 6 := rfl
      rw [h6] at hd2
      have h7 : (7 : Int) ≤
          binfo.dist_player (gs.player_pos.getD i 0 * binfo.nPositions + j2) := by
        omega
      have hod : (7 : ℚ) ≤
          ((binfo.dist_player (gs.player_pos.getD i 0 * binfo.nPositions + j2) :
            ℚ)) := by
        exact_mod_cast h7
      have hgt1 : (1 : ℚ) < 2 * ((binfo.dist_player
          (gs.player_pos.getD i 0 * binfo.nPositions + j2) : ℚ)) := by
        linarith
      have hfin := div_lt_self (by norm_num : (0 : ℚ) < 40) hgt1
      simpa using hfin
    rw [avoidObjective_unfold binfo gs pid j2 40,
      avoidObjective_unfold binfo gs pid j1 40]
    have hbeq : (List.range N_TARGETS_PLAYER).foldl
        (fun o i =>
          let target := gs.player_targets.getD (pid * N_TARGETS_PLAYER + i) 0
          if target = N_TARGETS then o
          else o + ((binfo.dist_boeg (j2 * binfo.nPositions + target) : ℚ))) 0 =
        (List.range N_TARGETS_PLAYER).foldl
        (fun o i =>
          let target := gs.player_targets.getD (pid * N_TARGETS_PLAYER + i) 0
          if target = N_TARGETS then o
          else o + ((binfo.dist_boeg (j1 * binfo.nPositions + target) : ℚ))) 0 := by
      apply foldl_ptwise_eq
      intro b hb x
      show (if gs.player_targets.getD (pid * N_TARGETS_PLAYER + b) 0 = N_TARGETS
            then x
            else x + ((binfo.dist_boeg (j2 * binfo.nPositions +
              gs.player_targets.getD (pid * N_TARGETS_PLAYER + b) 0) : ℚ))) =
          (if gs.player_targets.getD (pid * N_TARGETS_PLAYER + b) 0 = N_TARGETS
            then x
            else x + ((binfo.dist_boeg (j1 * binfo.nPositions +
              gs.player_targets.getD (pid * N_TARGETS_PLAYER + b) 0) : ℚ)))
      by_cases ht : gs.player_targets.getD (pid * N_TARGETS_PLAYER + b) 0 =
          N_TARGETS
      · rw [if_pos ht, if_pos ht]
      · rw [if_neg ht, if_neg ht, hbase b (List.mem_range.1 hb)]
    rw [hbeq]
    have hop2 : ∀ (a : ℚ) (i' : Nat),
        ((i' = pid ∨ AP_ISSET gs.active_players i' = false) →
          (if i' = pid ∨ AP_ISSET gs.active_players i' = false then a
           else a + 40 / avoidDenom binfo gs i' j2) = a) ∧
        (¬ (i' = pid ∨ AP_ISSET gs.active_players i' = false) →
          (if i' = pid ∨ AP_ISSET gs.active_players i' = false then a
           else a + 40 / avoidDenom binfo gs i' j2) =
            a + 40 / avoidDenom binfo gs i' j2) := by
      intro a i'
      constructor
      · intro h; rw [if_pos h]
      · intro h; rw [if_neg h]
    have hop1 : ∀ (a : ℚ) (i' : Nat),
        ((i' = pid ∨ AP_ISSET gs.active_players i' = false) →
          (if i' = pid ∨ AP_ISSET gs.active_players i' = false then a
           else a + 40 / avoidDenom binfo gs i' j1) = a) ∧
        (¬ (i' = pid ∨ AP_ISSET gs.active_players i' = false) →
          (if i' = pid ∨ AP_ISSET gs.active_players i' = false then a
           else a + 40 / avoidDenom binfo gs i' j1) =
            a + 40 / avoidDenom binfo gs i' j1) := by
      intro a i'
      constructor
      · intro h; rw [if_pos h]
      · intro h; rw [if_neg h]
    have hski : ¬ (i = pid ∨ AP_ISSET gs.active_players i = false) := by
      intro h
      rcases h with h | h
      · exact hip h
      · rw [hact] at h; cases h
    have hpt : ∀ i' ∈ List.range gs.nPlayers,
        ¬ (i' = pid ∨ AP_ISSET gs.active_players i' = false) →
        (40 : ℚ) / avoidDenom binfo gs i' j2 ≤ 40 / avoidDenom binfo gs i' j1 := by
      intro i' hi' hsk'
      have hnp' : i' ≠ pid := fun h => hsk' (Or.inl h)
      have hact' : AP_ISSET gs.active_players i' = true := by
        cases h : AP_ISSET gs.active_players i'
        · exact absurd (Or.inr h) hsk'
        · rfl
      have hii : i' = i := huniq i' (List.mem_range.1 hi') hnp' hact'
      rw [hii]
      exact le_of_lt hterm
    exact foldl_pen_lt_mem
      (fun i' => i' = pid ∨ AP_ISSET gs.active_players i' = false)
      (fun i' => 40 / avoidDenom binfo gs i' j2)
      (fun i' => 40 / avoidDenom binfo gs i' j1)
      (fun o i' => if i' = pid ∨ AP_ISSET gs.active_players i' = false then o
        else o + 40 / avoidDenom binfo gs i' j2)
      (fun o i' => if i' = pid ∨ AP_ISSET gs.active_players i' = false then o
        else o + 40 / avoidDenom binfo gs i' j1)
      hop2 hop1 (List.range gs.nPlayers) _ _ hpt (le_refl _)
      i (List.mem_range.2 hi) hski hterm

/-! ## Move frame lemmas and the driver invariant (claims C2, C7) -/

theorem moveFrame_self (gs : GameState) (pid : Nat) :
    MoveFrame gs gs pid STATUS.CONTINUE := by
  refine ⟨rfl, rfl, rfl, rfl, fun q _ => rfl, Or.inl rfl, ?_, fun _ => Or.inl rfl⟩
  intro hgo
  exact absurd hgo (by decide)

theorem moveFrame_boeg_pos (gs : GameState) (pid x : Nat) :
    MoveFrame gs { gs with boeg_pos := x } pid STATUS.CONTINUE := by
  refine ⟨rfl, rfl, rfl, rfl, fun q _ => rfl, Or.inl rfl, ?_, fun _ => Or.inl rfl⟩
  intro hgo
  exact absurd hgo (by decide)

theorem moveFrame_player_pos (gs : GameState) (pid : Nat) (pp : List Nat) :
    MoveFrame gs { gs with player_pos := pp } pid STATUS.CONTINUE := by
  refine ⟨rfl, rfl, rfl, rfl, fun q _ => rfl, Or.inl rfl, ?_, fun _ => Or.inl rfl⟩
  intro hgo
  exact absurd hgo (by decide)

/-- The common post-scan tail of both mark-holder branches satisfies the move
frame: either the mark moves to the selected vertex or nothing changes. -/
theorem boeg_post_frame (gs : GameState) (pid cl nPos : Nat) :
    MoveFrame gs
      (if cl ≠ nPos then (STATUS.CONTINUE, { gs with boeg_pos := cl })
       else (STATUS.CONTINUE, gs)).2 pid
      (if cl ≠ nPos then (STATUS.CONTINUE, { gs with boeg_pos := cl })
       else (STATUS.CONTINUE, gs)).1 := by
  split
  · exact moveFrame_boeg_pos gs pid cl
  · exact moveFrame_self gs pid

/-- `applyCapture` satisfies the move frame when the mover holds the mark. -/
theorem applyCapture_frame (gs : GameState) (pid slot target : Nat)
    (hb : gs.boeg_id = pid) :
    MoveFrame gs (applyCapture gs pid slot target).2 pid
      (applyCapture gs pid slot target).1 := by
  have h1 : (applyCapture gs pid slot target).1 =
      (if decrWrap (gs.player_targets_left.getD pid 0) = 0 then STATUS.GAMEOVER
       else STATUS.CONTINUE) := by simp only [applyCapture]
  refine ⟨rfl, rfl, rfl, ?_, ?_, Or.inl rfl, ?_, ?_⟩
  · show (gs.player_targets_left.set pid _).length = _
    exact List.length_set _ _ _
  · intro q hq
    show (gs.player_targets_left.set pid _).getD q 0 = _
    exact getD_set_ne _ _ _ _ hq
  · intro hgo
    rw [h1] at hgo
    by_cases hc : decrWrap (gs.player_targets_left.getD pid 0) = 0
    · constructor
      · intro hlen
        show (gs.player_targets_left.set pid _).getD pid 0 = 0
        rw [getD_set_self _ _ _ hlen]
        exact hc
      · exact hb
    · rw [if_neg hc] at hgo
      exact absurd hgo (by decide)
  · intro hng
    by_cases hc : decrWrap (gs.player_targets_left.getD pid 0) = 0
    · exact absurd (by rw [h1, if_pos hc]) hng
    · by_cases hlen : pid < gs.player_targets_left.length
      · right
        show (gs.player_targets_left.set pid _).getD pid 0 ≠ 0
        rw [getD_set_self _ _ _ hlen]
        exact hc
      · left
        show (gs.player_targets_left.set pid _).getD pid 0 = _
        rw [List.getD_eq_default _ _ (by rw [List.length_set]; omega),
          List.getD_eq_default _ _ (by omega)]

/-- The greedy mark-holder branch satisfies the move frame. -/
theorem boeg_frame_greedy (binfo : BoardInfo) (gs : GameState) (pid roll : Nat)
    (hb : gs.boeg_id = pid) :
    MoveFrame gs (GameState_move_greedy_boeg binfo gs pid roll).2 pid
      (GameState_move_greedy_boeg binfo gs pid roll).1 := by
  cases hscan : greedyScanAux binfo gs pid roll [0, 1, 2, 3] (RAND_MAX_C : Int)
      N_TARGETS with
  | inl p =>
    obtain ⟨i, t⟩ := p
    unfold GameState_move_greedy_boeg
    rw [hscan]
    exact applyCapture_frame gs pid i t hb
  | inr p =>
    obtain ⟨md, mt⟩ := p
    unfold GameState_move_greedy_boeg
    rw [hscan]
    exact boeg_post_frame gs pid _ _

/-- The avoidant mark-holder branch satisfies the move frame. -/
theorem boeg_frame_avoidant (binfo : BoardInfo) (gs : GameState)
    (pid roll : Nat) (av : ℚ) (hb : gs.boeg_id = pid) :
    MoveFrame gs (GameState_move_avoidant_boeg binfo gs pid roll av).2 pid
      (GameState_move_avoidant_boeg binfo gs pid roll av).1 := by
  cases hscan : avoidantScanAux binfo gs pid roll [0, 1, 2, 3] with
  | some p =>
    obtain ⟨i, t⟩ := p
    unfold GameState_move_avoidant_boeg
    rw [hscan]
    exact applyCapture_frame gs pid i t hb
  | none =>
    unfold GameState_move_avoidant_boeg
    rw [hscan]
    exact boeg_post_frame gs pid _ _

/-- Composing the frame across the capture-the-mark recursion step. -/
theorem moveFrame_step (gs gs2 gs' : GameState) (pid : Nat) (status : STATUS)
    (h : MoveFrame gs2 gs' pid status)
    (h1 : gs2.nPlayers = gs.nPlayers) (h2 : gs2.active_players = gs.active_players)
    (h3 : gs2.player_order = gs.player_order)
    (h4 : gs2.player_targets_left = gs.player_targets_left)
    (h5 : gs2.boeg_id = pid) :
    MoveFrame gs gs' pid status := by
  obtain ⟨f1, f2, f3, f4, f5, f6, f7, f8⟩ := h
  refine ⟨f1.trans h1, f2.trans h2, f3.trans h3, by rw [f4, h4], ?_, ?_, ?_, ?_⟩
  · intro q hq
    rw [f5 q hq, h4]
  · rcases f6 with h | h
    · exact Or.inr (h.trans h5)
    · exact Or.inr h
  · intro hgo
    obtain ⟨ha, hbid⟩ := f7 hgo
    exact ⟨fun hlen => by rw [ha (by rw [h4]; exact hlen)], hbid⟩
  · intro hng
    rcases f8 hng with h | h
    · left
      rw [h, h4]
    · right
      exact h

theorem move_frame_greedy (binfo : BoardInfo) :
    ∀ (rolls : List Nat) (gs : GameState) (pid : Nat) (status : STATUS)
      (gs' : GameState) (rest : List Nat),
      GameState_move_greedy binfo gs pid rolls = some (status, gs', rest) →
      MoveFrame gs gs' pid status := by
  intro rolls
  induction rolls with
  | nil =>
    intro gs pid status gs' rest h
    simp only [GameState_move_greedy] at h
    exact Option.noConfusion h
  | cons r rest' ih =>
    intro gs pid status gs' rest h
    simp only [GameState_move_greedy] at h
    by_cases hbid : pid = gs.boeg_id
    · rw [if_pos hbid] at h
      simp only [Option.some.injEq, Prod.mk.injEq] at h
      obtain ⟨hs, hg, -⟩ := h
      subst hs
      subst hg
      exact boeg_frame_greedy binfo gs pid _ hbid.symm
    · rw [if_neg hbid] at h
      by_cases hge : ((r % (RAND_MAX_C + 1) % DIE_SIZE + 1 : Nat) : Int) ≥
          binfo.dist_player (gs.player_pos.getD pid 0 * binfo.nPositions + gs.boeg_pos)
      · rw [if_pos hge] at h
        exact moveFrame_step gs _ gs' pid status (ih _ _ _ _ _ h) rfl rfl rfl rfl rfl
      · rw [if_neg hge] at h
        simp only [Option.some.injEq, Prod.mk.injEq] at h
        obtain ⟨hs, hg, -⟩ := h
        subst hs
        subst hg
        exact moveFrame_player_pos gs pid _

theorem move_frame_avoidant (binfo : BoardInfo) (av : ℚ) :
    ∀ (rolls : List Nat) (gs : GameState) (pid : Nat) (status : STATUS)
      (gs' : GameState) (rest : List Nat),
      GameState_move_avoidant binfo gs pid av rolls = some (status, gs', rest) →
      MoveFrame gs gs' pid status := by
  intro rolls
  induction rolls with
  | nil =>
    intro gs pid status gs' rest h
    simp only [GameState_move_avoidant] at h
    exact Option.noConfusion h
  | cons r rest' ih =>
    intro gs pid status gs' rest h
    simp only [GameState_move_avoidant] at h
    by_cases hbid : pid = gs.boeg_id
    · rw [if_pos hbid] at h
      simp only [Option.some.injEq, Prod.mk.injEq] at h
      obtain ⟨hs, hg, -⟩ := h
      subst hs
      subst hg
      exact boeg_frame_avoidant binfo gs pid _ av hbid.symm
    · rw [if_neg hbid] at h
      by_cases hge : ((r % (RAND_MAX_C + 1) % DIE_SIZE + 1 : Nat) : Int) ≥
          binfo.dist_player (gs.player_pos.getD pid 0 * binfo.nPositions + gs.boeg_pos)
      · rw [if_pos hge] at h
        exact moveFrame_step gs _ gs' pid status (ih _ _ _ _ _ h) rfl rfl rfl rfl rfl
      · rw [if_neg hge] at h
        simp only [Option.some.injEq, Prod.mk.injEq] at h
        obtain ⟨hs, hg, -⟩ := h
        subst hs
        subst hg
        exact moveFrame_player_pos gs pid _

theorem move_frame (binfo : BoardInfo) (gs : GameState) (pid : Nat) (av : ℚ)
    (strat : MOVE_STRATEGY) (rolls : List Nat) (status : STATUS)
    (gs' : GameState) (rest : List Nat)
    (h : GameState_move binfo gs pid av strat rolls = some (status, gs', rest)) :
    MoveFrame gs gs' pid status := by
  cases strat with
  | GREEDY => exact move_frame_greedy binfo rolls gs pid status gs' rest h
  | AVOIDANT => exact move_frame_avoidant binfo av rolls gs pid status gs' rest h
  | USER_COMMAND => exact absurd h (by simp [GameState_move])

/-- Bit `p` of the 8-bit clear mask for bit `i`. -/
theorem mask_testBit : ∀ i, i < 8 → ∀ p, p < 8 →
    Nat.testBit (255 ^^^ (1 <<< i)) p = if p = i then false else true := by
  decide

theorem AP_ISSET_UNSET (ap i p : Nat) (hi : i < 8) (hp : p < 8) :
    AP_ISSET (AP_UNSET ap i) p = if p = i then false else AP_ISSET ap p := by
  unfold AP_ISSET AP_UNSET
  rw [Nat.testBit_and, mask_testBit i hi p hp]
  by_cases hpi : p = i
  · rw [if_pos hpi, if_pos hpi, Bool.and_false]
  · rw [if_neg hpi, if_neg hpi, Bool.and_true]

theorem headD_append_ne (l l' : List Nat) (h : l ≠ []) :
    (l ++ l').headD 0 = l.headD 0 := by
  cases l with
  | nil => exact absurd rfl h
  | cons a t => rfl

theorem order_getD_lt (gs : GameState) (h : StateWF gs) (i : Nat) :
    gs.player_order.getD i 0 < gs.nPlayers := by
  obtain ⟨h0, _, _, hord⟩ := h
  by_cases hi : i < gs.player_order.length
  · apply hord
    rw [List.getD_eq_getElem _ _ hi]
    exact List.getElem_mem hi
  · rw [List.getD_eq_default _ _ (Nat.le_of_not_lt hi)]
    exact h0

/-- `playerStep` on a `GAMEOVER` report: bookkeeping equation. -/
theorem playerStep_eq_gameover (binfo : BoardInfo) (strats : List MOVE_STRATEGY)
    (av : ℚ) (st : RunState) (pid : Nat) (status : STATUS) (gs' : GameState)
    (rolls' : List Nat)
    (hdone : ¬ st.done = true)
    (hact : ¬ AP_ISSET st.gs.active_players pid = false)
    (hmv : GameState_move binfo st.gs pid av (strats.getD pid .GREEDY) st.rolls =
      some (status, gs', rolls'))
    (hgo : status = STATUS.GAMEOVER) :
    playerStep binfo strats av st pid =
      (if (st.ranking ++ [pid]).length = gs'.nPlayers - 1
       then some { gs := { gs' with boeg_id := BOEG_ID_DEFAULT, active_players := AP_UNSET gs'.active_players pid }, rolls := rolls', winner := (if st.ranking.length = 0 then (pid : Int) else st.winner), ranking := (st.ranking ++ [pid]) ++ lastActive { gs' with boeg_id := BOEG_ID_DEFAULT, active_players := AP_UNSET gs'.active_players pid }, done := true }
       else some { gs := { gs' with boeg_id := BOEG_ID_DEFAULT, active_players := AP_UNSET gs'.active_players pid }, rolls := rolls', winner := (if st.ranking.length = 0 then (pid : Int) else st.winner), ranking := st.ranking ++ [pid], done := false }) := by
  unfold playerStep
  rw [if_neg hdone, if_neg hact, hmv]
  show (if status = STATUS.GAMEOVER then _ else _) = _
  rw [if_pos hgo]

/-- `playerStep` on a non-`GAMEOVER` report: only the game state and the roll
stream advance. -/
theorem playerStep_eq_continue (binfo : BoardInfo) (strats : List MOVE_STRATEGY)
    (av : ℚ) (st : RunState) (pid : Nat) (status : STATUS) (gs' : GameState)
    (rolls' : List Nat)
    (hdone : ¬ st.done = true)
    (hact : ¬ AP_ISSET st.gs.active_players pid = false)
    (hmv : GameState_move binfo st.gs pid av (strats.getD pid .GREEDY) st.rolls =
      some (status, gs', rolls'))
    (hng : ¬ status = STATUS.GAMEOVER) :
    playerStep binfo strats av st pid =
      some { st with gs := gs', rolls := rolls' } := by
  unfold playerStep
  rw [if_neg hdone, if_neg hact, hmv]
  show (if status = STATUS.GAMEOVER then _ else _) = _
  rw [if_neg hng]

/-- One player slot of a round preserves the driver invariant. -/
theorem playerStep_inv (binfo : BoardInfo) (strats : List MOVE_STRATEGY)
    (av : ℚ) (st : RunState) (pid : Nat) (st' : RunState)
    (h : playerStep binfo strats av st pid = some st')
    (hpid : pid < st.gs.nPlayers)
    (hinv : RunInv st) : RunInv st' := by
  obtain ⟨hwf, hsi, hw3, hw4, hw5⟩ := hinv
  obtain ⟨hnp0, hnp8, hlen, horder⟩ := hwf
  obtain ⟨hboeg, hcnt⟩ := hsi
  by_cases hdone : st.done = true
  · have he : playerStep binfo strats av st pid = some st := by
      unfold playerStep
      rw [if_pos hdone]
    rw [he] at h
    injection h with h
    rw [← h]
    exact ⟨⟨hnp0, hnp8, hlen, horder⟩, ⟨hboeg, hcnt⟩, hw3, hw4, hw5⟩
  · by_cases hact : AP_ISSET st.gs.active_players pid = false
    · have he : playerStep binfo strats av st pid = some st := by
        unfold playerStep
        rw [if_neg hdone, if_pos hact]
      rw [he] at h
      injection h with h
      rw [← h]
      exact ⟨⟨hnp0, hnp8, hlen, horder⟩, ⟨hboeg, hcnt⟩, hw3, hw4, hw5⟩
    · have hact' : AP_ISSET st.gs.active_players pid = true := by
        cases hb : AP_ISSET st.gs.active_players pid
        · exact absurd hb hact
        · rfl
      cases hmv : GameState_move binfo st.gs pid av (strats.getD pid .GREEDY)
          st.rolls with
      | none =>
        have he : playerStep binfo strats av st pid = none := by
          unfold playerStep
          rw [if_neg hdone, if_neg hact, hmv]
        rw [he] at h
        exact Option.noConfusion h
      | some trip =>
        obtain ⟨status, gs', rolls'⟩ := trip
        obtain ⟨f1, f2, f3, f4, f5, f6, f7, f8⟩ :=
          move_frame binfo st.gs pid av (strats.getD pid .GREEDY) st.rolls
            status gs' rolls' hmv
        have hpid8 : pid < 8 := by omega
        by_cases hgo : status = STATUS.GAMEOVER
        · obtain ⟨hc0, hbid'⟩ := f7 hgo
          have hcpid : gs'.player_targets_left.getD pid 0 = 0 :=
            hc0 (by rw [hlen]; exact hpid)
          have hr1 : st.ranking ++ [pid] ≠ [] := by simp
          have hswf : StateWF { gs' with boeg_id := BOEG_ID_DEFAULT, active_players := AP_UNSET gs'.active_players pid } := by
            refine ⟨?_, ?_, ?_, ?_⟩
            · show 0 < gs'.nPlayers
              rw [f1]
              exact hnp0
            · show gs'.nPlayers ≤ 8
              rw [f1]
              exact hnp8
            · show gs'.player_targets_left.length = gs'.nPlayers
              rw [f4, hlen, f1]
            · show ∀ x ∈ gs'.player_order, x < gs'.nPlayers
              rw [f3, f1]
              exact horder
          have hsinv : StateInv { gs' with boeg_id := BOEG_ID_DEFAULT, active_players := AP_UNSET gs'.active_players pid } := by
            constructor
            · exact Or.inl rfl
            · intro p hp
              have hp' : p < gs'.nPlayers := hp
              rw [f1] at hp'
              show AP_ISSET (AP_UNSET gs'.active_players pid) p = true ↔
                gs'.player_targets_left.getD p 0 ≠ 0
              rw [AP_ISSET_UNSET gs'.active_players pid p hpid8 (by omega)]
              by_cases hppid : p = pid
              · subst hppid
                rw [if_pos rfl, hcpid]
                simp
              · rw [if_neg hppid, f2, f5 p hppid]
                exact hcnt p hp'
          have hmain : ∀ (L : List Nat) (d : Bool),
              RunInv { gs := { gs' with boeg_id := BOEG_ID_DEFAULT, active_players := AP_UNSET gs'.active_players pid }, rolls := rolls', winner := (if st.ranking.length = 0 then (pid : Int) else st.winner), ranking := (st.ranking ++ [pid]) ++ L, done := d } := by
            intro L d
            refine ⟨hswf, hsinv, ?_, ?_, ?_⟩
            · show (if st.ranking.length = 0 then (pid : Int) else st.winner) = -1 ↔
                (st.ranking ++ [pid]) ++ L = []
              constructor
              · intro hW
                exfalso
                by_cases hr0 : st.ranking.length = 0
                · rw [if_pos hr0] at hW
                  have := Int.natCast_nonneg pid
                  omega
                · rw [if_neg hr0] at hW
                  have hrne : st.ranking ≠ [] := by
                    intro hr
                    exact hr0 (by rw [hr]; rfl)
                  rw [hw4 hrne] at hW
                  have := Int.natCast_nonneg (st.ranking.headD 0)
                  omega
              · intro hW
                exfalso
                rw [List.append_eq_nil] at hW
                exact hr1 hW.1
            · intro _
              show (if st.ranking.length = 0 then (pid : Int) else st.winner) =
                ((((st.ranking ++ [pid]) ++ L).headD 0 : Nat) : Int)
              rw [headD_append_ne _ L hr1]
              by_cases hr0 : st.ranking.length = 0
              · have hrnil : st.ranking = [] := List.length_eq_zero.mp hr0
                rw [if_pos hr0, hrnil]
                rfl
              · have hrne : st.ranking ≠ [] := by
                  intro hr
                  exact hr0 (by rw [hr]; rfl)
                rw [if_neg hr0, headD_append_ne _ [pid] hrne]
                exact hw4 hrne
            · intro _
              constructor
              · show ((st.ranking ++ [pid]) ++ L).headD 0 < gs'.nPlayers
                rw [headD_append_ne _ L hr1, f1]
                by_cases hr0 : st.ranking = []
                · rw [hr0]
                  show pid < st.gs.nPlayers
                  exact hpid
                · rw [headD_append_ne _ [pid] hr0]
                  exact (hw5 hr0).1
              · show AP_ISSET (AP_UNSET gs'.active_players pid)
                  (((st.ranking ++ [pid]) ++ L).headD 0) = false
                rw [headD_append_ne _ L hr1]
                by_cases hr0 : st.ranking = []
                · rw [hr0]
                  show AP_ISSET (AP_UNSET gs'.active_players pid) pid = false
                  rw [AP_ISSET_UNSET gs'.active_players pid pid hpid8 hpid8,
                    if_pos rfl]
                · rw [headD_append_ne _ [pid] hr0]
                  have hW5old := hw5 hr0
                  have hne : st.ranking.headD 0 ≠ pid := by
                    intro he
                    have h2 := hW5old.2
                    rw [he, hact'] at h2
                    exact Bool.noConfusion h2
                  have hlt8 : st.ranking.headD 0 < 8 := by
                    have := hW5old.1
                    omega
                  rw [AP_ISSET_UNSET gs'.active_players pid _ hpid8 hlt8,
                    if_neg hne, f2]
                  exact hW5old.2
          rw [playerStep_eq_gameover binfo strats av st pid status gs' rolls'
            hdone hact hmv hgo] at h
          by_cases hlen2 : (st.ranking ++ [pid]).length = gs'.nPlayers - 1
          · rw [if_pos hlen2] at h
            injection h with h
            rw [← h]
            exact hmain _ true
          · rw [if_neg hlen2] at h
            injection h with h
            rw [← h]
            have h0 := hmain [] false
            rw [List.append_nil] at h0
            exact h0
        · rw [playerStep_eq_continue binfo strats av st pid status gs' rolls'
            hdone hact hmv hgo] at h
          injection h with h
          rw [← h]
          have hswf : StateWF gs' := by
            refine ⟨?_, ?_, ?_, ?_⟩
            · rw [f1]
              exact hnp0
            · rw [f1]
              exact hnp8
            · rw [f4, hlen, f1]
            · rw [f3, f1]
              exact horder
          have hsinv : StateInv gs' := by
            constructor
            · rcases f6 with hb | hb
              · rcases hboeg with h1 | ⟨h1, h2⟩
                · exact Or.inl (hb.trans h1)
                · refine Or.inr ⟨?_, ?_⟩
                  · rw [hb, f1]
                    exact h1
                  · rw [hb, f2]
                    exact h2
              · refine Or.inr ⟨?_, ?_⟩
                · rw [hb, f1]
                  exact hpid
                · rw [hb, f2]
                  exact hact'
            · intro p hp
              have hp' : p < st.gs.nPlayers := by
                rw [← f1]
                exact hp
              by_cases hppid : p = pid
              · subst hppid
                rw [f2]
                constructor
                · intro _
                  rcases f8 hgo with hc | hc
                  · rw [hc]
                    exact (hcnt p hp').mp hact'
                  · exact hc
                · intro _
                  exact hact'
              · rw [f2, f5 p hppid]
                exact hcnt p hp'
          refine ⟨hswf, hsinv, hw3, hw4, ?_⟩
          intro hrne
          obtain ⟨ha, hb⟩ := hw5 hrne
          constructor
          · show st.ranking.headD 0 < gs'.nPlayers
            rw [f1]
            exact ha
          · show AP_ISSET gs'.active_players (st.ranking.headD 0) = false
            rw [f2]
            exact hb

/-- A whole round preserves the driver invariant. -/
theorem roundAux_inv (binfo : BoardInfo) (strats : List MOVE_STRATEGY)
    (av : ℚ) : ∀ (l : List Nat) (st st' : RunState),
    roundAux binfo strats av st l = some st' → RunInv st → RunInv st' := by
  intro l
  induction l with
  | nil =>
    intro st st' h hinv
    simp only [roundAux] at h
    injection h with h
    rw [← h]
    exact hinv
  | cons i rest ih =>
    intro st st' h hinv
    simp only [roundAux] at h
    cases hps : playerStep binfo strats av st (st.gs.player_order.getD i 0) with
    | none =>
      rw [hps] at h
      exact Option.noConfusion h
    | some st1 =>
      rw [hps] at h
      exact ih st1 st' h
        (playerStep_inv binfo strats av st (st.gs.player_order.getD i 0) st1 hps
          (order_getD_lt st.gs hinv.1 i) hinv)

/-- The round loop preserves the driver invariant and the round counter stays
within its fuel. -/
theorem runAux_inv (binfo : BoardInfo) (strats : List MOVE_STRATEGY)
    (av : ℚ) : ∀ (fuel nTurns : Nat) (st st' : RunState) (n' : Nat),
    runAux binfo strats av fuel nTurns st = some (st', n') →
    RunInv st → RunInv st' ∧ n' ≤ nTurns + fuel := by
  intro fuel
  induction fuel with
  | zero =>
    intro nTurns st st' n' h hinv
    simp only [runAux] at h
    injection h with h
    rw [Prod.mk.injEq] at h
    obtain ⟨h1, h2⟩ := h
    rw [← h1, ← h2]
    exact ⟨hinv, Nat.le_add_right _ _⟩
  | succ f ih =>
    intro nTurns st st' n' h hinv
    simp only [runAux] at h
    cases hrs : roundStep binfo strats av st with
    | none =>
      rw [hrs] at h
      exact Option.noConfusion h
    | some st1 =>
      rw [hrs] at h
      have h' : (if st1.done = true then some (st1, nTurns)
          else runAux binfo strats av f (nTurns + 1) st1) = some (st', n') := h
      have hinv1 : RunInv st1 :=
        roundAux_inv binfo strats av (List.range st.gs.nPlayers) st st1 hrs hinv
      by_cases hdone : st1.done = true
      · rw [if_pos hdone] at h'
        injection h' with h
        rw [Prod.mk.injEq] at h
        obtain ⟨h1, h2⟩ := h
        rw [← h1, ← h2]
        exact ⟨hinv1, by omega⟩
      · rw [if_neg hdone] at h'
        obtain ⟨hi, hn⟩ := ih (nTurns + 1) st1 st' n' h' hinv1
        exact ⟨hi, by omega⟩

/-- Bit `p` of the freshly initialized active mask. -/
theorem AP_INIT_testBit : ∀ np, np ≤ 8 → ∀ p, p < 8 →
    AP_ISSET (AP_INIT np) p = decide (p < np) := by
  decide

theorem getD_replicate_lt (n a p : Nat) (h : p < n) :
    (List.replicate n a).getD p 0 = a := by
  rw [List.getD_eq_getElem _ _ (by rw [List.length_replicate]; exact h)]
  simp

/-- A freshly initialized game is well-formed and satisfies C7's invariant:
the mark is unheld, every player is active with four targets left. -/
theorem GameState_init_inv (nPlayers nPositions : Nat) (rng : List Nat)
    (h0 : 0 < nPlayers) (h8 : nPlayers ≤ 8) :
    StateWF (GameState_init nPlayers nPositions rng).1 ∧
    StateInv (GameState_init nPlayers nPositions rng).1 := by
  have hNP : (GameState_init nPlayers nPositions rng).1.nPlayers = nPlayers := by
    simp only [GameState_init]
  have hPTL : (GameState_init nPlayers nPositions rng).1.player_targets_left =
      List.replicate nPlayers N_TARGETS_PLAYER := by
    simp only [GameState_init]
  have hORD : (GameState_init nPlayers nPositions rng).1.player_order =
      (shuffle (List.range nPlayers) rng).1 := by
    simp only [GameState_init]
  have hAP : (GameState_init nPlayers nPositions rng).1.active_players =
      AP_INIT nPlayers := by
    simp only [GameState_init]
  have hBID : (GameState_init nPlayers nPositions rng).1.boeg_id =
      BOEG_ID_DEFAULT := by
    simp only [GameState_init]
  constructor
  · refine ⟨?_, ?_, ?_, ?_⟩
    · rw [hNP]
      exact h0
    · rw [hNP]
      exact h8
    · rw [hPTL, hNP, List.length_replicate]
    · intro x hx
      rw [hORD] at hx
      rw [hNP]
      have hperm := (shuffle_perm (List.range nPlayers) rng).1
      exact List.mem_range.1 (hperm.mem_iff.mp hx)
  · constructor
    · exact Or.inl hBID
    · intro p hp
      rw [hNP] at hp
      rw [hAP, hPTL, AP_INIT_testBit nPlayers h8 p (by omega)]
      constructor
      · intro _
        rw [getD_replicate_lt nPlayers N_TARGETS_PLAYER p hp]
        decide
      · intro _
        simp [hp]

/-- C2: a driver run iterates at most `MAX_TURNS` rounds; the reported winner
is `-1` exactly when nobody finished (a capped game is still returned as a
result, not aborted), and otherwise the winner is the first finisher: the
ranking's head, a deactivated player, whose remaining-target count is zero in
the final state. -/
theorem C2_driver_cap_winner (binfo : BoardInfo) (gs : GameState)
    (strats : List MOVE_STRATEGY) (rolls : List Nat) (res : GameResult)
    (st' : RunState)
    (hwf : StateWF gs) (hsi : StateInv gs)
    (hrun : GameState_run binfo gs strats rolls = some (res, st')) :
    res.nTurns ≤ MAX_TURNS ∧
    (res.winner = -1 ↔ st'.ranking = []) ∧
    (st'.ranking ≠ [] →
      res.winner = ((st'.ranking.headD 0 : Nat) : Int) ∧
      st'.gs.player_targets_left.getD (st'.ranking.headD 0) 0 = 0 ∧
      AP_ISSET st'.gs.active_players (st'.ranking.headD 0) = false) := by
  unfold GameState_run at hrun
  cases hra : runAux binfo strats 40 (MAX_TURNS - 1) 1
      { gs := gs, rolls := rolls, winner := -1, ranking := [], done := false } with
  | none =>
    rw [hra] at hrun
    exact Option.noConfusion hrun
  | some p =>
    obtain ⟨stf, nf⟩ := p
    rw [hra] at hrun
    have hrun' : some (({ winner := stf.winner, nTurns := nf } : GameResult), stf) =
        some (res, st') := hrun
    injection hrun' with hrun'
    rw [Prod.mk.injEq] at hrun'
    obtain ⟨h1, h2⟩ := hrun'
    have hinv0 : RunInv { gs := gs, rolls := rolls, winner := -1, ranking := [], done := false } := by
      refine ⟨hwf, hsi, ⟨fun _ => rfl, fun _ => rfl⟩, ?_, ?_⟩
      · intro hne
        exact absurd rfl hne
      · intro hne
        exact absurd rfl hne
    obtain ⟨⟨hswf, hsinv, hw3, hw4, hw5⟩, hn⟩ :=
      runAux_inv binfo strats 40 (MAX_TURNS - 1) 1 _ stf nf hra hinv0
    rw [← h1, ← h2]
    refine ⟨?_, hw3, ?_⟩
    · show nf ≤ MAX_TURNS
      have hMT : MAX_TURNS = 100 := rfl
      omega
    · intro hne
      obtain ⟨ha, hb⟩ := hw5 hne
      refine ⟨hw4 hne, ?_, hb⟩
      by_contra hc
      have hbit := (hsinv.2 (stf.ranking.headD 0) ha).mpr hc
      rw [hb] at hbit
      exact Bool.noConfusion hbit

/-- Witness for C2: the concrete three-player game where players 0 and 1
finish in the first round; the run returns winner 0 after one round. -/
theorem C2_driver_cap_winner_witness :
    (StateWF gsExRun ∧ StateInv gsExRun ∧
      GameState_run binfoEx gsExRun [] [1, 1, 1] =
        some (({ winner := 0, nTurns := 1 } : GameResult),
          { gs := { targets := [], player_pos := [2, 0, 3], player_targets := [40, 40, 40, 40, 40, 40, 40, 40, 40, 40, 40, 40], player_targets_left := [0, 0, 0], player_order := [0, 1, 2], boeg_pos := 1, boeg_id := 7, nPlayers := 3, active_players := 0 }, rolls := [], winner := 0, ranking := [0, 1], done := true })) ∧
    ({ winner := 0, nTurns := 1 } : GameResult).nTurns ≤ MAX_TURNS :=
  ⟨⟨by unfold StateWF; decide, by unfold StateInv; decide, by decide⟩,
   (C2_driver_cap_winner binfoEx gsExRun [] [1, 1, 1]
     ({ winner := 0, nTurns := 1 } : GameResult)
     { gs := { targets := [], player_pos := [2, 0, 3], player_targets := [40, 40, 40, 40, 40, 40, 40, 40, 40, 40, 40, 40], player_targets_left := [0, 0, 0], player_order := [0, 1, 2], boeg_pos := 1, boeg_id := 7, nPlayers := 3, active_players := 0 }, rolls := [], winner := 0, ranking := [0, 1], done := true }
     (by unfold StateWF; decide) (by unfold StateInv; decide) (by decide)).1⟩

/-- C7: in every state reachable during a driver run, the mark is unheld (the
`BOEG_ID_DEFAULT` sentinel) or held by an active player, and a player's active
bit is cleared exactly when their remaining-target count reaches zero (active
players have a nonzero count, deactivated players have zero): the invariant
holds after `GameState_init`, is preserved by every player slot of the round
loop, and holds in the final state of `GameState_run`. -/
theorem C7_boeg_active_invariant (binfo : BoardInfo)
    (strats : List MOVE_STRATEGY) :
    (∀ (nPlayers nPositions : Nat) (rng : List Nat),
      0 < nPlayers → nPlayers ≤ 8 →
      StateWF (GameState_init nPlayers nPositions rng).1 ∧
      StateInv (GameState_init nPlayers nPositions rng).1) ∧
    (∀ (st : RunState) (pid : Nat) (st' : RunState),
      playerStep binfo strats 40 st pid = some st' →
      pid < st.gs.nPlayers → RunInv st → RunInv st') ∧
    (∀ (gs : GameState) (rolls : List Nat) (res : GameResult) (st' : RunState),
      StateWF gs → StateInv gs →
      GameState_run binfo gs strats rolls = some (res, st') →
      StateWF st'.gs ∧ StateInv st'.gs) := by
  refine ⟨?_, ?_, ?_⟩
  · intro nPlayers nPositions rng h0 h8
    exact GameState_init_inv nPlayers nPositions rng h0 h8
  · intro st pid st' h hpid hinv
    exact playerStep_inv binfo strats 40 st pid st' h hpid hinv
  · intro gs rolls res st' hwf hsi hrun
    unfold GameState_run at hrun
    cases hra : runAux binfo strats 40 (MAX_TURNS - 1) 1
        { gs := gs, rolls := rolls, winner := -1, ranking := [], done := false } with
    | none =>
      rw [hra] at hrun
      exact Option.noConfusion hrun
    | some p =>
      obtain ⟨stf, nf⟩ := p
      rw [hra] at hrun
      have hrun' : some (({ winner := stf.winner, nTurns := nf } : GameResult), stf) =
          some (res, st') := hrun
      injection hrun' with hrun'
      rw [Prod.mk.injEq] at hrun'
      obtain ⟨h1, h2⟩ := hrun'
      have hinv0 : RunInv { gs := gs, rolls := rolls, winner := -1, ranking := [], done := false } := by
        refine ⟨hwf, hsi, ⟨fun _ => rfl, fun _ => rfl⟩, ?_, ?_⟩
        · intro hne
          exact absurd rfl hne
        · intro hne
          exact absurd rfl hne
      obtain ⟨⟨hswf, hsinv, -, -, -⟩, -⟩ :=
        runAux_inv binfo strats 40 (MAX_TURNS - 1) 1 _ stf nf hra hinv0
      rw [← h2]
      exact ⟨hswf, hsinv⟩

/-- Witness for C7: one concrete player slot in which player 0 finishes; the
driver deactivates them with a zero count, releases the mark, and the
invariant holds in the resulting state. -/
theorem C7_boeg_active_invariant_witness :
    (playerStep binfoEx [] 40 { gs := gsExRun, rolls := [1], winner := -1, ranking := [], done := false } 0 =
        some { gs := { targets := [], player_pos := [2, 1, 3], player_targets := [40, 40, 40, 40, 1, 40, 40, 40, 40, 40, 40, 40], player_targets_left := [0, 1, 0], player_order := [0, 1, 2], boeg_pos := 0, boeg_id := 7, nPlayers := 3, active_players := 2 }, rolls := [], winner := 0, ranking := [0], done := false } ∧
      RunInv { gs := gsExRun, rolls := [1], winner := -1, ranking := [], done := false }) ∧
    RunInv { gs := { targets := [], player_pos := [2, 1, 3], player_targets := [40, 40, 40, 40, 1, 40, 40, 40, 40, 40, 40, 40], player_targets_left := [0, 1, 0], player_order := [0, 1, 2], boeg_pos := 0, boeg_id := 7, nPlayers := 3, active_players := 2 }, rolls := [], winner := 0, ranking := [0], done := false } :=
  ⟨⟨by decide, by unfold RunInv StateWF StateInv; decide⟩,
   (C7_boeg_active_invariant binfoEx []).2.1
     { gs := gsExRun, rolls := [1], winner := -1, ranking := [], done := false } 0
     { gs := { targets := [], player_pos := [2, 1, 3], player_targets := [40, 40, 40, 40, 1, 40, 40, 40, 40, 40, 40, 40], player_targets_left := [0, 1, 0], player_order := [0, 1, 2], boeg_pos := 0, boeg_id := 7, nPlayers := 3, active_players := 2 }, rolls := [], winner := 0, ranking := [0], done := false }
     (by decide) (by decide) (by unfold RunInv StateWF StateInv; decide)⟩

/-- Witness for C5 on the concrete board: the mark holder at vertex 4 with all
targets two steps away rolls a 1, captures nothing, and the call continues. -/
theorem C5_avoidant_min_objective_witness :
    (avoidantScanAux binfoEx gsEx5 0 1 [0, 1, 2, 3] = none ∧
      binfoEx.nPositions = binfoEx.graph_boeg.nVert ∧
      gsEx5.boeg_pos < binfoEx.graph_boeg.nVert) ∧
    (GameState_move_avoidant_boeg binfoEx gsEx5 0 1 40).1 = STATUS.CONTINUE :=
  ⟨⟨by decide, by decide, by decide⟩,
   (C5_avoidant_min_objective binfoEx gsEx5 0 1 40
     (mkGraph_WF _ (by decide)) (by decide) (by decide) (by decide)).1⟩

end Fang